import Mathlib

/-!
Verification of the `prefcode` Go package (file `prefixCode.go`).

Modelling conventions
=====================

* A Go rune is modelled as a `Nat` (its Unicode code point); a Go string is
  modelled as the list of its runes (`Str`).  UTF-8 is order-preserving and
  self-synchronising, so the bytewise prefix tests and sorts of the source
  (`strings.HasPrefix`, `sort.Strings`, `<`) coincide with runewise
  prefix/order on all strings and are modelled runewise.  Go's `len` is a
  byte count; where the source uses it for arithmetic — `ExpandAt`'s
  `lengthDiff = len(word) - len(k)` and the spine slice
  `buildSpine[len(k):]` of a `[]rune` — the model uses rune counts.  Byte
  and rune counts agree exactly when every rune involved is single-byte
  (code point < 128); on multibyte alphabets with an expansion target
  strictly below a codeword the real code indexes a `[]rune` by a byte
  offset and panics or corrupts the code (the package's own TODO records
  this as unresolved).  Accordingly the one theorem that quantifies over
  arbitrary alphabets (claim C1) carries the hypothesis that every alphabet
  rune is single-byte, and every other claim's domain (codewords as
  expansion targets, `{0,1}` data, concrete ASCII inputs) keeps the two
  arithmetics equal.

* A Go `map[string]int` is modelled as an association list (`CodeMap`) whose
  keys are kept unique by the insert operation, exactly as a Go map does.
  Go map iteration order is unspecified; every loop of the source whose
  result we state is order-independent given the data it is run on (minima,
  counts, pointwise relabelling, unique-match searches), and the list order
  of the model stands in for one admissible iteration order.

* Every method of `prefixCode` has a VALUE receiver (`func (p prefixCode)`).
  A call therefore operates on a copy of the struct: writes into the shared
  `map` object (`p.code[k] = v`, `delete`) are visible to the caller, while
  assignments to the struct fields themselves (`p.code = make(...)` in
  `ReduceAt`, `p.code = pc` in `SetCode`, `p.alphabet = ...` in
  `SetAlphabet`) are lost when the method returns.  Each function below is
  the caller-visible state transformer obtained by applying this rule to
  the method body; where a field assignment is dropped this is noted.

* Go `int` labels are modelled as `Int`, so the source's label arithmetic
  (`v + 1 - foundCount`) is represented exactly, without natural-number
  truncation.
-/

/-- A Unicode code point. -/
abbrev Rune := Nat

/-- A Go string, as its list of runes. -/
abbrev Str := List Rune

/-- The reserved code point U+1D6C6 whose one-rune string is the constant
`EmptyString` of the source ("representing the empty string for the empty
prefix code"); the constructor forbids it in alphabets. -/
def sentinelRune : Rune := 120518

/-- The source constant `EmptyString`: the one-rune string of `sentinelRune`. -/
def emptyString : Str := [sentinelRune]

/-- Runewise strict lexicographic order on strings; agrees with Go's bytewise
`<` on UTF-8 strings because UTF-8 encoding is order-preserving. -/
def lexLt : Str → Str → Bool
  | [], [] => false
  | [], _ :: _ => true
  | _ :: _, [] => false
  | a :: xs, b :: ys => a < b || (a = b && lexLt xs ys)

/-- Insert a string into a `lexLt`-sorted list, keeping it sorted. -/
def insertSorted (x : Str) : List Str → List Str
  | [] => [x]
  | y :: ys => if lexLt y x then y :: insertSorted x ys else x :: y :: ys

/-- Sorting a list of strings into ascending bytewise order.  The source uses
`sort.Strings`; on a multiset of strings every comparison sort produces the
same list (equal elements are identical strings), so insertion sort is a
faithful model of the result. -/
def sortStrs (l : List Str) : List Str := l.foldr insertSorted []

/-- The `map[string]int` of the source, as an association list with unique
keys (list order models one admissible Go map iteration order). -/
abbrev CodeMap := List (Str × Int)

/-- Go map read `p.code[k]` together with its `ok` bit. -/
def mapLookup (m : CodeMap) (k : Str) : Option Int :=
  (m.find? (fun kv => kv.1 = k)).map Prod.snd

/-- Go map write `m[k] = v`: replaces the value at an existing key, otherwise
adds the binding. -/
def mapInsert (m : CodeMap) (k : Str) (v : Int) : CodeMap :=
  if (m.find? (fun kv => kv.1 = k)).isSome then
    m.map (fun kv => if kv.1 = k then (k, v) else kv)
  else
    m ++ [(k, v)]

/-- Go `delete(m, k)`. -/
def mapErase (m : CodeMap) (k : Str) : CodeMap :=
  m.filter (fun kv => ¬ kv.1 = k)

/-- The key list of a code map (the codewords). -/
def mapKeys (m : CodeMap) : List Str := m.map Prod.fst

/-- The struct `prefixCode`: an alphabet of runes and a codeword-to-label map. -/
structure PrefixCode where
  alphabet : List Rune
  code : CodeMap
  deriving Repr, DecidableEq

/-- Constructor `NewPrefCodeAlphaRunes`: rejects alphabets containing the
reserved rune (`EmptyString == string(v)` holds exactly for `sentinelRune`)
and empty alphabets, otherwise starts in the sentinel-only state. -/
def newPrefCodeAlphaRunes (alpha : List Rune) : Option PrefixCode :=
  if sentinelRune ∈ alpha then none
  else if alpha.length < 1 then none
  else some { alphabet := alpha, code := [(emptyString, 0)] }

/-- Insert a rune into an ascending list, keeping it ascending. -/
def insertRune (x : Rune) : List Rune → List Rune
  | [] => [x]
  | y :: ys => if y < x then y :: insertRune x ys else x :: y :: ys

/-- Ascending sort of runes (`sort.Slice` with `r[i] < r[j]`; equal runes are
identical, so any comparison sort yields this list). -/
def sortRunes (l : List Rune) : List Rune := l.foldr insertRune []

/-- The deduplication scan of `MakeAlphabet`: append each rune that differs
from the last rune appended (on the sorted input this removes duplicates). -/
def dedupAux (last : Rune) : List Rune → List Rune
  | [] => []
  | v :: vs => if ¬ v = last then v :: dedupAux v vs else dedupAux last vs

/-- Helper `MakeAlphabet`: sort the runes of a string and drop duplicates
(the source sorts, seeds the output with the first rune, then appends each
rune differing from the last one appended; the seed absorbs its own first
occurrence). -/
def makeAlphabet (s : Str) : List Rune :=
  match sortRunes s with
  | [] => []
  | r :: rs => r :: dedupAux r rs

/-- Constructor `NewPrefCodeAlphaString`. -/
def newPrefCodeAlphaString (s : Str) : Option PrefixCode :=
  newPrefCodeAlphaRunes (makeAlphabet s)

/-- Constructor `NewPrefCode`: alphabet from the string "01" (runes 48, 49). -/
def newPrefCode : Option PrefixCode :=
  newPrefCodeAlphaString [48, 49]

/-- Method `Size`. -/
def sizeFn (p : PrefixCode) : Nat := p.code.length

/-- Method `Code` (returns the map). -/
def codeFn (p : PrefixCode) : CodeMap := p.code

/-- Method `Alphabet` (returns a copy of the alphabet, equal as a value). -/
def alphabetFn (p : PrefixCode) : List Rune := p.alphabet

/-- Method `LeafAtLabel`: empty string when the label is out of bounds,
otherwise the key carrying the label (unique whenever labels are a
permutation, which is the only situation the source uses it in). -/
def leafAtLabel (p : PrefixCode) (label : Int) : Str :=
  if label > (p.code.length : Int) - 1 ∨ label < 0 then []
  else ((p.code.find? (fun kv => kv.2 = label)).map Prod.fst).getD []

/-- Method `SetCode`.  The body is the single statement `p.code = pc`, a
field assignment on the value receiver: the caller's struct is unchanged, so
the caller-visible transformer is the identity. -/
def setCode (p : PrefixCode) (_pc : CodeMap) : PrefixCode := p

/-- Method `SetAlphabet`.  The body copies `a` into `p.alphabet` of the value
receiver; the caller's struct is unchanged, so the caller-visible
transformer is the identity. -/
def setAlphabet (p : PrefixCode) (_a : List Rune) : PrefixCode := p

/-- Method `ReduceAt`, caller-visible effect.  The first branch ("collapse
whole PrefCode") allocates a fresh map and assigns it to `p.code` of the
value receiver: the caller's map is untouched, so the caller sees the
original state together with the returned `true`.  The normal branch works
through the shared map, which is visible: delete every codeword having `s`
as a prefix (recording their number and minimal label, the minimum seeded
with `len(p.code)`), reinsert `s` at the minimal label, then shift every
label above the minimum down by `foundCount - 1`. -/
def reduceAt (p : PrefixCode) (s : Str) : PrefixCode × Bool :=
  if s = [] ∨ s = emptyString then
    (p, true)
  else
    let matched := p.code.filter (fun kv => s.isPrefixOf kv.1)
    let foundCount : Int := matched.length
    let firstFoundix : Int :=
      matched.foldl (fun acc kv => if kv.2 < acc then kv.2 else acc) (p.code.length : Int)
    if matched.length = 0 then
      (p, false)
    else
      let rest := p.code.filter (fun kv => ¬ s.isPrefixOf kv.1)
      let inserted := mapInsert rest s firstFoundix
      let relabeled := inserted.map
        (fun kv => if kv.2 > firstFoundix then (kv.1, kv.2 + 1 - foundCount) else kv)
      ({ p with code := relabeled }, true)

/-- The one-level development performed by `ExpandAt` on the sentinel-only
state: `p.code[string(v)] = k` for every index/rune pair of the alphabet,
then `delete(p.code, EmptyString)` (all through the shared map). -/
def developOneLevel (p : PrefixCode) : CodeMap :=
  mapErase (p.alphabet.enum.foldl (fun c iv => mapInsert c [iv.2] (iv.1 : Int)) p.code)
    emptyString

/-- The sibling/fan block built by `ExpandAt` once a codeword `pfx` with label
`labelAtP` covering `s` is found: for every position of the remaining spine,
one string per alphabet rune differing from the spine rune there, then the
full alphabet fan one rune beyond the spine.  The Go code writes into a
slice preallocated to `numberNewCodes` entries; when fewer strings are
generated (possible only with duplicated alphabet runes) the tail keeps the
zero value `""`, which the model reproduces with `List.replicate`.  (With a
spine rune outside the alphabet the Go code would generate more strings
than allocated and panic on the out-of-range write; no claim touches that
situation and the model does not extend to it.) -/
def sibList (alpha : List Rune) (spine : Str) : List Str :=
  (List.range spine.length).flatMap
    (fun jj => (alpha.filter (fun r => ¬ r = spine.getD jj 0)).map
      (fun r => spine.take jj ++ [r]))

/-- The full alphabet fan one rune beyond the spine. -/
def fanList (alpha : List Rune) (spine : Str) : List Str :=
  alpha.map (fun r => spine ++ [r])

def buildToAppend (alpha : List Rune) (spine : Str) (numberNewCodes : Nat) : List Str :=
  let raw := sibList alpha spine ++ fanList alpha spine
  raw ++ List.replicate (numberNewCodes - raw.length) []

/-- The part of `ExpandAt` below the sentinel-state special cases: search the
map for a codeword that is a prefix of `s` (unique when the codewords are
prefix-incomparable; the model takes the first in list order standing for
Go's arbitrary map order), and if none exists report failure without
mutation.  Otherwise delete that codeword, shift every label above its
label up by `numberNewCodes - 1`, and insert the sorted sibling/fan block
with consecutive labels starting at the freed label.  The source computes
`lengthDiff` and the spine with byte lengths (`len(word) - len(k)`,
`buildSpine[len(k):]` on a `[]rune`); the model uses rune counts
(`s.length - pfx.length`, `s.drop pfx.length`), which coincide with the
byte versions exactly when every rune of `s` and of the matched codeword is
single-byte, and always when the matched codeword is `s` itself (both
differences are 0); theorems quantifying beyond those situations carry a
single-byte hypothesis (see claim C1). -/
def expandAtMain (p : PrefixCode) (s : Str) : PrefixCode × Bool :=
  match p.code.find? (fun kv => kv.1.isPrefixOf s) with
  | none => (p, false)
  | some kv =>
    let pfx := kv.1
    let labelAtP := kv.2
    let lengthDiff := s.length - pfx.length
    let numberNewCodes := lengthDiff * (p.alphabet.length - 1) + p.alphabet.length
    let spine := s.drop pfx.length
    let toAppend := sortStrs (buildToAppend p.alphabet spine numberNewCodes)
    let erased := mapErase p.code pfx
    let shifted := erased.map
      (fun kv2 => if kv2.2 > labelAtP then (kv2.1, kv2.2 + (numberNewCodes : Int) - 1) else kv2)
    let final := toAppend.enum.foldl
      (fun c jv => mapInsert c (pfx ++ jv.2) (labelAtP + (jv.1 : Int))) shifted
    ({ p with code := final }, true)

/-- Method `ExpandAt`, caller-visible effect (all mutations of this method go
through the shared map, so everything it does is caller-visible).  On the
sentinel-only state — detected exactly as in the source, by `len(p.code)`
and `LeafAtLabel(0)` — a request at the root just develops one level, and
any other request develops one level and then falls through to the general
case. -/
def expandAt (p : PrefixCode) (s : Str) : PrefixCode × Bool :=
  if (s = emptyString ∨ s = []) ∧ p.code.length = 1 ∧ leafAtLabel p 0 = emptyString then
    ({ p with code := developOneLevel p }, true)
  else
    let p1 := if p.code.length = 1 ∧ leafAtLabel p 0 = emptyString then
      { p with code := developOneLevel p } else p
    expandAtMain p1 s

/-- Decimal digits of a natural number as runes, with explicit fuel (the fuel
`n` suffices since a number has at most `n` digits). -/
def natDigitsAux : Nat → Nat → Str
  | 0, _ => []
  | fuel + 1, n => if n = 0 then [] else natDigitsAux fuel (n / 10) ++ [48 + n % 10]

/-- Go `strconv.Itoa` as a rune string. -/
def itoa (v : Int) : Str :=
  if v < 0 then 45 :: (if v.natAbs = 0 then [48] else natDigitsAux v.natAbs v.natAbs)
  else if v.toNat = 0 then [48] else natDigitsAux v.toNat v.toNat

/-- Go `trimLastChar`: drop the final rune. -/
def trimLastChar (s : Str) : Str := s.dropLast

/-- Method `ExposedCarets`.  For every codeword of positive length the last
rune is trimmed and the decimal rendering of its label is appended to the
`mset` entry of the trimmed word; a trimmed word is reported when its entry
has length equal to the alphabet size, and the report is sorted.  (Note the
tally is a string concatenation of label digit strings, so "length" counts
digits, not children.)  The qualification and the sorted output are
independent of Go's map iteration order, which only permutes the digits
inside each entry. -/
def exposedCarets (p : PrefixCode) : List Str :=
  let mset : List (Str × Str) := p.code.foldl
    (fun m kv =>
      if kv.1.length > 0 then
        let t := trimLastChar kv.1
        match m.find? (fun e => e.1 = t) with
        | some _ => m.map (fun e => if e.1 = t then (t, e.2 ++ itoa kv.2) else e)
        | none => m ++ [(t, itoa kv.2)]
      else m)
    []
  sortStrs ((mset.filter (fun e => e.2.length = p.alphabet.length)).map Prod.fst)

/-- Method `Join`: a fresh code over `p`'s alphabet, expanded at every exposed
caret of `p`, then at every exposed caret of `q` (the expansions mutate the
fresh code through its shared map, so they accumulate). -/
def join (p q : PrefixCode) : Option PrefixCode :=
  match newPrefCodeAlphaRunes p.alphabet with
  | none => none
  | some jpc0 =>
    let jpc1 := (exposedCarets p).foldl (fun j v => (expandAt j v).1) jpc0
    some ((exposedCarets q).foldl (fun j v => (expandAt j v).1) jpc1)

/-- The longest common prefix loop inside `Meet` (rune-by-rune agreement up to
the shorter length). -/
def commonPfx (v w : Str) : Str :=
  match v, w with
  | a :: vs, b :: ws => if a = b then a :: commonPfx vs ws else []
  | _, _ => []

/-- Method `Meet`: collect the nonempty longest common prefixes of every pair
of exposed carets of `p` and `q` into a set (first-occurrence order models
Go's map), then expand a fresh code at each. -/
def meet (p q : PrefixCode) : Option PrefixCode :=
  match newPrefCodeAlphaRunes p.alphabet with
  | none => none
  | some jpc0 =>
    let pairs := (exposedCarets p).flatMap
      (fun v => (exposedCarets q).map (fun w => commonPfx v w))
    let allCommonExpansions := pairs.foldl
      (fun acc c => if c.length > 0 ∧ ¬ c ∈ acc then acc ++ [c] else acc) []
    some (allCommonExpansions.foldl (fun j v => (expandAt j v).1) jpc0)

/-- Method `CodeToSlice`: `make([]string, len(p.code))` creates `n` empty
strings, and the subsequent `append`s add the `n` codewords after them. -/
def codeToSlice (p : PrefixCode) : List Str :=
  List.replicate p.code.length [] ++ p.code.map Prod.fst

/-- Method `String`: codewords in sorted order, each rendered as
`[word label]`, joined by `", "` (rune 91 = `[`, 32 = space, 93 = `]`,
44 = `,`). -/
def stringRepr (p : PrefixCode) : Str :=
  List.intercalate [44, 32]
    ((sortStrs (mapKeys p.code)).map
      (fun k => 91 :: k ++ 32 :: itoa ((mapLookup p.code k).getD 0) ++ [93]))

/-- The scanning loop of `ValidDFSForPrefC`: processes runes one at a time,
adding `alSize - 1` to the tally on `'1'` (rune 49), subtracting one and
counting a leaf on `'0'` (rune 48), and failing when the tally hits zero
strictly before the end; returns the final leaf count on success. -/
def dfsScan (alSize : Int) (total : Nat) :
    List Rune → Int → Int → Nat → Option Int
  | [], _, countLeaves, _ => some countLeaves
  | c :: cs, tally, countLeaves, totalCount =>
    let totalCount1 := totalCount + 1
    let tally1 := if c = 49 then tally + alSize - 1 else tally
    let tally2 := if c = 48 then tally1 - 1 else tally1
    let countLeaves1 := if c = 48 then countLeaves + 1 else countLeaves
    if tally2 = 0 ∧ totalCount1 < total then none
    else dfsScan alSize total cs tally2 countLeaves1 totalCount1

/-- Function `ValidDFSForPrefC`: the string must have exactly
`(alSize-1)·(number of '1's) + 1` runes `'0'`, must start with `'1'`, and the
scan must complete, after which the leaf count is re-checked (a repetition of
the first test).  `len(DFS)` is a byte count in Go, equal to the rune count
on `{0,1}` strings, the only ones the function is specified for. -/
def validDFSForPrefC (alSize : Nat) (dfs : List Rune) : Bool :=
  let carets : Int := dfs.countP (fun c => c = 49)
  let leaves : Int := dfs.countP (fun c => c = 48)
  if ¬ (leaves = ((alSize : Int) - 1) * carets + 1) then false
  else if ¬ ([49].isPrefixOf dfs) then false
  else
    match dfsScan ((alSize : Int)) dfs.length dfs 1 0 0 with
    | none => false
    | some countLeaves =>
      if ¬ (countLeaves = ((alSize : Int) - 1) * carets + 1) then false
      else true

/-! ## Specification-side predicates -/

/-- A word over the given alphabet (every rune drawn from it). -/
def wordOver (alpha : List Rune) (w : Str) : Prop := ∀ r ∈ w, r ∈ alpha

instance wordOver.dec (alpha : List Rune) (w : Str) : Decidable (wordOver alpha w) :=
  List.decidableBAll _ w

/-- The refinement order of the specification: `refines A B` (`A ≤ B`) holds
when every codeword of `B` has some codeword of `A` as a prefix. -/
def refines (a b : PrefixCode) : Prop :=
  ∀ w ∈ mapKeys b.code, ∃ v ∈ mapKeys a.code, v <+: w

instance refines.dec (a b : PrefixCode) : Decidable (refines a b) := by
  unfold refines; infer_instance

/-- One step of the mutation API (the argument of an `ExpandAt` or `ReduceAt`
call). -/
inductive Op where
  | expand (w : Str)
  | reduce (w : Str)
  deriving Repr, DecidableEq

/-- The word an operation is applied at. -/
def Op.word : Op → Str
  | .expand w => w
  | .reduce w => w

/-- Caller-visible effect of one operation. -/
def applyOp (p : PrefixCode) : Op → PrefixCode
  | .expand w => (expandAt p w).1
  | .reduce w => (reduceAt p w).1

/-- Caller-visible effect of a finite sequence of operations. -/
def runOps (p : PrefixCode) (ops : List Op) : PrefixCode := ops.foldl applyOp p

/-! ## The key order maintained by the labels

The first expansion of a fresh code labels the one-rune codewords by their
position in the alphabet slice, and all later operations insert blocks sorted
by the bytewise string order.  The order the labels realise therefore
compares the position of the first rune in the alphabet slice first and the
remaining runes lexicographically; `phiKey` rewrites a word into that shape
so that plain `lexLt` can compare it. -/

/-- Replace the leading rune of a word by its index in the alphabet slice. -/
def phiKey (alpha : List Rune) : Str → Str
  | [] => []
  | a :: xs => alpha.indexOf a :: xs

/-- The order on codewords realised by the labels: alphabet-slice position of
the first rune, then plain lexicographic order. -/
def keyLt (alpha : List Rune) (x y : Str) : Bool :=
  lexLt (phiKey alpha x) (phiKey alpha y)

/-! ## Well-formedness invariant

`CodeWF` is the reachable-state invariant of a developed code: keys are
distinct nonempty alphabet words, pairwise prefix-incomparable, and every
label is the rank of its key in the `keyLt` order.  A freshly constructed
code is instead in the sentinel-only state. -/

/-- Rank of a word among a list of codewords under `keyLt`. -/
def rankOf (alpha : List Rune) (ks : List Str) (x : Str) : Nat :=
  ks.countP (fun j => keyLt alpha j x)

/-- Well-formed alphabet: distinct runes, nonempty, reserved rune absent. -/
def AlphaWF (alpha : List Rune) : Prop :=
  alpha.Nodup ∧ alpha ≠ [] ∧ sentinelRune ∉ alpha

/-- Well-formed developed code over an alphabet. -/
def CodeWF (alpha : List Rune) (m : CodeMap) : Prop :=
  (mapKeys m).Nodup ∧
  (∀ k ∈ mapKeys m, k ≠ [] ∧ wordOver alpha k) ∧
  (∀ a ∈ mapKeys m, ∀ b ∈ mapKeys m, a ≠ b → ¬ a <+: b) ∧
  (∀ kv ∈ m, kv.2 = (rankOf alpha (mapKeys m) kv.1 : Int))

/-- The reachable-state invariant of a `prefixCode` value. -/
def StateInv (p : PrefixCode) : Prop :=
  AlphaWF p.alphabet ∧ (p.code = [(emptyString, 0)] ∨ CodeWF p.alphabet p.code)

instance AlphaWF.dec (alpha : List Rune) : Decidable (AlphaWF alpha) := by
  unfold AlphaWF; infer_instance

instance CodeWF.dec (alpha : List Rune) (m : CodeMap) : Decidable (CodeWF alpha m) := by
  unfold CodeWF wordOver rankOf; infer_instance

instance StateInv.dec (p : PrefixCode) : Decidable (StateInv p) := by
  unfold StateInv; infer_instance

/-! ## Computation helpers for `ReduceAt` -/

/-- The minimum taken by the `firstFoundix` loop of `ReduceAt` (seeded with
`len(p.code)`). -/
def reduceMin (m : CodeMap) (s : Str) : Int :=
  (m.filter (fun kv => s.isPrefixOf kv.1)).foldl
    (fun acc kv => if kv.2 < acc then kv.2 else acc) (m.length : Int)

/-- The map produced by the normal branch of `ReduceAt` (matched entries
removed, `s` inserted at the minimal matched label, labels above the minimum
shifted down). -/
def reduceResult (m : CodeMap) (s : Str) : CodeMap :=
  (mapInsert (m.filter (fun kv => ¬ s.isPrefixOf kv.1)) s (reduceMin m s)).map
    (fun kv => if kv.2 > reduceMin m s then
      (kv.1, kv.2 + 1 - ((m.filter (fun kv2 => s.isPrefixOf kv2.1)).length : Int)) else kv)

/-! ## Computation helpers for `ExpandAt` -/

/-- The slice size `numberNewCodes` of `ExpandAt`, with the source's
byte-length difference `len(word) - len(k)` rendered as a rune-count
difference (the two agree on single-byte runes, and both are 0 when
`pfx = s`, the only case the codeword-expansion claims use). -/
def expandN (alpha : List Rune) (s pfx : Str) : Nat :=
  (s.length - pfx.length) * (alpha.length - 1) + alpha.length

/-- The sorted `toAppend` slice of `ExpandAt`. -/
def expandToAppend (alpha : List Rune) (s pfx : Str) : List Str :=
  sortStrs (buildToAppend alpha (s.drop pfx.length) (expandN alpha s pfx))

/-- The deletion of the matched codeword and the upward shift of later labels
performed by `ExpandAt`. -/
def expandShift (m : CodeMap) (pfx : Str) (lab : Int) (n : Nat) : CodeMap :=
  (mapErase m pfx).map
    (fun kv => if kv.2 > lab then (kv.1, kv.2 + (n : Int) - 1) else kv)

/-- The block of new entries inserted by `ExpandAt`: the sorted suffixes
appended to the matched codeword, with consecutive labels from its label. -/
def expandBlock (pfx : Str) (lab : Int) (ta : List Str) : CodeMap :=
  ta.enum.map (fun ju => (pfx ++ ju.2, lab + (ju.1 : Int)))

/-- The map produced by a successful `ExpandAt` beyond the sentinel special
cases: shifted remainder followed by the sorted block of new entries. -/
def expandResult (alpha : List Rune) (m : CodeMap) (s : Str) (kv : Str × Int) : CodeMap :=
  expandShift m kv.1 kv.2 (expandN alpha s kv.1)
    ++ expandBlock kv.1 kv.2 (expandToAppend alpha s kv.1)

/-! ## Characterisation of `ValidDFSForPrefC` -/

/-- Specification-side counter step: "+(k-1) on a `'1'`, -1 on a `'0'`"
(other runes leave the counter alone, matching the scan loop). -/
def dfsStep (k : Int) (t : Int) (c : Rune) : Int :=
  if c = 49 then t + k - 1 else if c = 48 then t - 1 else t

/-- Specification-side condition: the running counter, started at 1, is
nonzero after every proper nonempty prefix of the string. -/
def noEarlyZero (k : Nat) (s : List Rune) : Prop :=
  ∀ j < s.length, (j + 1 < s.length → (s.take (j + 1)).foldl (dfsStep (k : Int)) 1 ≠ 0)

instance noEarlyZero.dec (k : Nat) (s : List Rune) : Decidable (noEarlyZero k s) := by
  unfold noEarlyZero; infer_instance

/-- The specification's validity condition for a depth-first traversal
string: starts with `'1'`, has `(k-1)·(number of 1s) + 1` zeros, and the
running open-slots counter stays nonzero strictly before the final
character. -/
def validDFSSpec (k : Nat) (s : List Rune) : Prop :=
  s.head? = some 49 ∧
  ((s.countP (fun c => c = 48) : Nat) : Int)
    = ((k : Int) - 1) * ((s.countP (fun c => c = 49) : Nat) : Int) + 1 ∧
  noEarlyZero k s

instance validDFSSpec.dec (k : Nat) (s : List Rune) : Decidable (validDFSSpec k s) := by
  unfold validDFSSpec; infer_instance

/-- Success condition of the scan loop with general accumulator state. -/
def scanOk (k : Int) (total : Nat) (tc : Nat) (t : Int) (s : List Rune) : Prop :=
  ∀ j < s.length, ((s.take (j + 1)).foldl (dfsStep k) t = 0 → ¬ tc + (j + 1) < total)

instance scanOk.dec (k : Int) (total tc : Nat) (t : Int) (s : List Rune) :
    Decidable (scanOk k total tc t s) := by
  unfold scanOk; infer_instance

/-! ## Concrete instances used by the claim witnesses and counterexamples -/

/-- The fresh binary code produced by `NewPrefCodeAlphaRunes('0','1')`. -/
def fresh01 : PrefixCode := { alphabet := [48, 49], code := [(emptyString, 0)] }

/-- The one-level development `{"0" ↦ 0, "1" ↦ 1}` (obtained by expanding the
fresh code at the root). -/
def pc01 : PrefixCode := (expandAt fresh01 []).1

/-- The three-leaf code `{"0", "10", "11"}`. -/
def p3ex : PrefixCode := (expandAt fresh01 [49]).1

/-- The twelve-leaf right comb `{"0", "10", ..., "11111111110", "11111111111"}`
(expansion at the word of ten `'1'`s), whose deepest labels have two decimal
digits. -/
def comb12ex : PrefixCode := (expandAt fresh01 (List.replicate 10 49)).1

/-- The value `NewPrefCodeAlphaRunes` builds from the duplicated alphabet
`"00"` (the constructor performs no duplicate check). -/
def pDup : PrefixCode := { alphabet := [48, 48], code := [(emptyString, 0)] }

/-! ## Lexicographic order: basic lemmas -/

theorem lexLt_irrefl (s : Str) : lexLt s s = false := by
  induction s with
  | nil => rfl
  | cons a xs ih => simp [lexLt, ih]

theorem lexLt_trans : ∀ {a b c : Str}, lexLt a b = true → lexLt b c = true →
    lexLt a c = true := by
  intro a
  induction a with
  | nil =>
    intro b c hab hbc
    cases b with
    | nil => simp [lexLt] at hab
    | cons y ys =>
      cases c with
      | nil => simp [lexLt] at hbc
      | cons z zs => simp [lexLt]
  | cons x xs ih =>
    intro b c hab hbc
    cases b with
    | nil => simp [lexLt] at hab
    | cons y ys =>
      cases c with
      | nil => simp [lexLt] at hbc
      | cons z zs =>
        simp only [lexLt, Bool.or_eq_true, Bool.and_eq_true, decide_eq_true_eq] at hab hbc ⊢
        rcases hab with h1 | ⟨rfl, h1⟩
        · rcases hbc with h2 | ⟨rfl, h2⟩
          · exact Or.inl (h1.trans h2)
          · exact Or.inl h1
        · rcases hbc with h2 | ⟨rfl, h2⟩
          · exact Or.inl h2
          · exact Or.inr ⟨rfl, ih h1 h2⟩

theorem lexLt_asymm {a b : Str} (h : lexLt a b = true) : lexLt b a = false := by
  by_contra hc
  have hba : lexLt b a = true := by
    cases hx : lexLt b a with
    | false => exact absurd hx hc
    | true => rfl
  have := lexLt_trans h hba
  rw [lexLt_irrefl] at this
  exact Bool.false_ne_true this

theorem lexLt_eq_of_not : ∀ {a b : Str}, lexLt a b = false → lexLt b a = false → a = b := by
  intro a
  induction a with
  | nil =>
    intro b hab _
    cases b with
    | nil => rfl
    | cons y ys => simp [lexLt] at hab
  | cons x xs ih =>
    intro b hab hba
    cases b with
    | nil => simp [lexLt] at hba
    | cons y ys =>
      simp only [lexLt, Bool.or_eq_false_iff, Bool.and_eq_false_iff, decide_eq_false_iff_not,
        decide_eq_true_eq] at hab hba
      obtain ⟨hxy, hab2⟩ := hab
      obtain ⟨hyx, hba2⟩ := hba
      have hxyeq : x = y := Nat.le_antisymm (Nat.le_of_not_lt hyx) (Nat.le_of_not_lt hxy)
      subst hxyeq
      rcases hab2 with h | h
      · exact absurd rfl h
      · rcases hba2 with h2 | h2
        · exact absurd rfl h2
        · rw [ih h h2]

theorem lexLt_append_cancel : ∀ (p u v : Str), lexLt (p ++ u) (p ++ v) = lexLt u v := by
  intro p
  induction p with
  | nil => intro u v; rfl
  | cons a p ih => intro u v; simp [lexLt, ih]

theorem lexLt_cons_self_append (a : Rune) (s u : Str) :
    lexLt s (s ++ a :: u) = true := by
  induction s with
  | nil => simp [lexLt]
  | cons x xs ih => simp [lexLt, ih]

theorem lexLt_extension_right : ∀ {u v : Str}, ¬ u <+: v → ¬ v <+: u →
    ∀ (w : Str), lexLt u (v ++ w) = lexLt u v := by
  intro u
  induction u with
  | nil => intro v huv _ _; exact absurd List.nil_prefix huv
  | cons a us ih =>
    intro v huv hvu w
    cases v with
    | nil => exact absurd List.nil_prefix hvu
    | cons b vs =>
      by_cases hab : a = b
      · subst hab
        have h1 : ¬ us <+: vs := fun h => huv (List.cons_prefix_cons.2 ⟨rfl, h⟩)
        have h2 : ¬ vs <+: us := fun h => hvu (List.cons_prefix_cons.2 ⟨rfl, h⟩)
        simp [lexLt, ih h1 h2 w]
      · simp [lexLt, hab]

theorem lexLt_extension_left : ∀ {u v : Str}, ¬ u <+: v → ¬ v <+: u →
    ∀ (w : Str), lexLt (v ++ w) u = lexLt v u := by
  intro u
  induction u with
  | nil => intro v huv _ _; exact absurd List.nil_prefix huv
  | cons a us ih =>
    intro v huv hvu w
    cases v with
    | nil => exact absurd List.nil_prefix hvu
    | cons b vs =>
      by_cases hab : a = b
      · subst hab
        have h1 : ¬ us <+: vs := fun h => huv (List.cons_prefix_cons.2 ⟨rfl, h⟩)
        have h2 : ¬ vs <+: us := fun h => hvu (List.cons_prefix_cons.2 ⟨rfl, h⟩)
        simp [lexLt, ih h1 h2 w]
      · have hba : ¬ b = a := fun h => hab h.symm
        simp [lexLt, hba]

theorem lexLt_sandwich : ∀ {s y u v : Str}, lexLt (s ++ u) y = true →
    lexLt y (s ++ v) = true → s <+: y ∨ y <+: s := by
  intro s
  induction s with
  | nil => intro y u v _ _; exact Or.inl List.nil_prefix
  | cons a s ih =>
    intro y u v h1 h2
    cases y with
    | nil => simp [lexLt] at h1
    | cons b ys =>
      simp only [List.cons_append, lexLt, Bool.or_eq_true, Bool.and_eq_true,
        decide_eq_true_eq] at h1 h2
      rcases h1 with hab | ⟨heq1, h1⟩
      · rcases h2 with hba | ⟨heq2, _⟩
        · exact absurd (hab.trans hba) (Nat.lt_irrefl a)
        · subst heq2; exact absurd hab (Nat.lt_irrefl _)
      · subst heq1
        rcases h2 with hba | ⟨_, h2⟩
        · exact absurd hba (Nat.lt_irrefl _)
        · rcases ih h1 h2 with h | h
          · exact Or.inl (List.cons_prefix_cons.2 ⟨rfl, h⟩)
          · exact Or.inr (List.cons_prefix_cons.2 ⟨rfl, h⟩)

theorem phiKey_append (alpha : List Rune) {p : Str} (hp : p ≠ []) (u : Str) :
    phiKey alpha (p ++ u) = phiKey alpha p ++ u := by
  cases p with
  | nil => exact absurd rfl hp
  | cons a xs => simp [phiKey]

theorem phiKey_prefix_iff (alpha : List Rune) (hnd : alpha.Nodup) :
    ∀ {x y : Str}, x ≠ [] → y ≠ [] → x.head? = y.head? ∨
      (∃ a ∈ alpha, x.head? = some a) ∧ (∃ b ∈ alpha, y.head? = some b) →
    (phiKey alpha x <+: phiKey alpha y ↔ x <+: y) := by
  intro x y hx hy hheads
  cases x with
  | nil => exact absurd rfl hx
  | cons a xs =>
    cases y with
    | nil => exact absurd rfl hy
    | cons b ys =>
      simp only [phiKey, List.cons_prefix_cons]
      constructor
      · rintro ⟨hidx, hpre⟩
        refine ⟨?_, hpre⟩
        rcases hheads with h | ⟨⟨a2, ha2, hha⟩, ⟨b2, hb2, hhb⟩⟩
        · simpa using h
        · simp only [List.head?_cons, Option.some_inj] at hha hhb
          subst hha; subst hhb
          exact (List.indexOf_inj ha2 hb2).1 hidx
      · rintro ⟨rfl, hpre⟩
        exact ⟨rfl, hpre⟩

theorem keyLt_irrefl (alpha : List Rune) (x : Str) : keyLt alpha x x = false :=
  lexLt_irrefl _

theorem keyLt_trans {alpha : List Rune} {x y z : Str} (h1 : keyLt alpha x y = true)
    (h2 : keyLt alpha y z = true) : keyLt alpha x z = true :=
  lexLt_trans h1 h2

theorem keyLt_asymm {alpha : List Rune} {x y : Str} (h : keyLt alpha x y = true) :
    keyLt alpha y x = false :=
  lexLt_asymm h

theorem keyLt_total {alpha : List Rune} (hnd : alpha.Nodup) {x y : Str}
    (hx : x ≠ [] → x.head? = y.head? ∨
      (∃ a ∈ alpha, x.head? = some a) ∧ (∃ b ∈ alpha, y.head? = some b))
    (hne : x ≠ y) (h1 : keyLt alpha x y = false) : keyLt alpha y x = true := by
  cases h2 : keyLt alpha y x with
  | true => rfl
  | false =>
    exfalso
    have := lexLt_eq_of_not h1 h2
    apply hne
    cases x with
    | nil =>
      cases y with
      | nil => rfl
      | cons b ys => simp [phiKey] at this
    | cons a xs =>
      cases y with
      | nil => simp [phiKey] at this
      | cons b ys =>
        simp only [phiKey, List.cons.injEq] at this
        obtain ⟨hidx, rfl⟩ := this
        rcases hx (by simp) with hh | ⟨⟨a2, ha2, hha⟩, ⟨b2, hb2, hhb⟩⟩
        · simp only [List.head?_cons, Option.some_inj] at hh
          rw [hh]
        · simp only [List.head?_cons, Option.some_inj] at hha hhb
          subst hha; subst hhb
          rw [(List.indexOf_inj ha2 hb2).1 hidx]

theorem keyLt_extension_right {alpha : List Rune} (hnd : alpha.Nodup) {x p : Str}
    (hx : x ≠ []) (hp : p ≠ []) (hxa : ∃ a ∈ alpha, x.head? = some a)
    (hpa : ∃ b ∈ alpha, p.head? = some b)
    (hxp : ¬ x <+: p) (hpx : ¬ p <+: x) (u : Str) :
    keyLt alpha x (p ++ u) = keyLt alpha x p := by
  unfold keyLt
  rw [phiKey_append alpha hp]
  refine lexLt_extension_right ?_ ?_ u
  · intro h
    exact hxp ((phiKey_prefix_iff alpha hnd hx hp (Or.inr ⟨hxa, hpa⟩)).1 h)
  · intro h
    exact hpx ((phiKey_prefix_iff alpha hnd hp hx (Or.inr ⟨hpa, hxa⟩)).1 h)

theorem keyLt_extension_left {alpha : List Rune} (hnd : alpha.Nodup) {x p : Str}
    (hx : x ≠ []) (hp : p ≠ []) (hxa : ∃ a ∈ alpha, x.head? = some a)
    (hpa : ∃ b ∈ alpha, p.head? = some b)
    (hxp : ¬ x <+: p) (hpx : ¬ p <+: x) (u : Str) :
    keyLt alpha (p ++ u) x = keyLt alpha p x := by
  unfold keyLt
  rw [phiKey_append alpha hp]
  refine lexLt_extension_left ?_ ?_ u
  · intro h
    exact hxp ((phiKey_prefix_iff alpha hnd hx hp (Or.inr ⟨hxa, hpa⟩)).1 h)
  · intro h
    exact hpx ((phiKey_prefix_iff alpha hnd hp hx (Or.inr ⟨hpa, hxa⟩)).1 h)

theorem keyLt_append_cancel (alpha : List Rune) {p : Str} (hp : p ≠ []) (u v : Str) :
    keyLt alpha (p ++ u) (p ++ v) = lexLt u v := by
  unfold keyLt
  rw [phiKey_append alpha hp, phiKey_append alpha hp]
  cases p with
  | nil => exact absurd rfl hp
  | cons a xs =>
    simp only [phiKey]
    exact lexLt_append_cancel _ u v

theorem keyLt_sandwich {alpha : List Rune} (hnd : alpha.Nodup) {s y u v : Str}
    (hs : s ≠ []) (hy : y ≠ []) (hsa : ∃ a ∈ alpha, s.head? = some a)
    (hya : ∃ b ∈ alpha, y.head? = some b)
    (h1 : keyLt alpha (s ++ u) y = true) (h2 : keyLt alpha y (s ++ v) = true) :
    s <+: y ∨ y <+: s := by
  unfold keyLt at h1 h2
  rw [phiKey_append alpha hs] at h1 h2
  rcases lexLt_sandwich h1 h2 with h | h
  · exact Or.inl ((phiKey_prefix_iff alpha hnd hs hy (Or.inr ⟨hsa, hya⟩)).1 h)
  · exact Or.inr ((phiKey_prefix_iff alpha hnd hy hs (Or.inr ⟨hya, hsa⟩)).1 h)

/-! ## Counting helpers -/

theorem countP_lt_of_witness {α : Type} (p q : α → Bool) :
    ∀ (l : List α), (∀ x ∈ l, p x = true → q x = true) →
    ∀ x ∈ l, q x = true → p x = false → l.countP p < l.countP q := by
  intro l
  induction l with
  | nil => intro _ x hx; simp at hx
  | cons a l ih =>
    intro hmono x hx hqx hpx
    rcases List.mem_cons.1 hx with hx | hx
    · subst hx
      have h1 : (x :: l).countP p = l.countP p := by simp [List.countP_cons, hpx]
      have h2 : (x :: l).countP q = l.countP q + 1 := by simp [List.countP_cons, hqx]
      rw [h1, h2]
      have : l.countP p ≤ l.countP q :=
        List.countP_mono_left (fun y hy => hmono y (List.mem_cons_of_mem _ hy))
      omega
    · have hlt := ih (fun y hy => hmono y (List.mem_cons_of_mem _ hy)) x hx hqx hpx
      simp only [List.countP_cons]
      have : (if p a = true then 1 else 0) ≤ (if q a = true then 1 else 0) := by
        by_cases hpa : p a = true
        · rw [if_pos hpa, if_pos (hmono a (List.mem_cons_self a l) hpa)]
        · rw [if_neg hpa]; exact Nat.zero_le _
      omega

theorem countP_eq_of_const {α : Type} (p : α → Bool) (b : Bool) :
    ∀ (l : List α), (∀ x ∈ l, p x = b) →
    l.countP p = if b then l.length else 0 := by
  intro l
  induction l with
  | nil => intro _; simp
  | cons a l ih =>
    intro h
    have ha := h a (List.mem_cons_self a l)
    have hrec := ih (fun x hx => h x (List.mem_cons_of_mem _ hx))
    cases b with
    | true => simp only [List.countP_cons, ha, if_true, hrec, List.length_cons]
    | false => simp only [List.countP_cons, ha, if_false, hrec]; simp

/-! ## Insertion sort lemmas -/

theorem insertSorted_perm (x : Str) : ∀ (l : List Str),
    (insertSorted x l).Perm (x :: l) := by
  intro l
  induction l with
  | nil => simp [insertSorted]
  | cons y ys ih =>
    by_cases h : lexLt y x = true
    · simp only [insertSorted, h, if_true]
      exact (ih.cons y).trans (List.Perm.swap x y ys)
    · simp [insertSorted, h]

theorem sortStrs_perm (l : List Str) : (sortStrs l).Perm l := by
  induction l with
  | nil => simp [sortStrs]
  | cons a l ih =>
    have : sortStrs (a :: l) = insertSorted a (sortStrs l) := rfl
    rw [this]
    exact (insertSorted_perm a (sortStrs l)).trans (ih.cons a)

theorem insertSorted_sorted (x : Str) : ∀ (l : List Str),
    l.Pairwise (fun a b => lexLt b a = false) →
    (insertSorted x l).Pairwise (fun a b => lexLt b a = false) := by
  intro l
  induction l with
  | nil => intro _; simp [insertSorted]
  | cons y ys ih =>
    intro hl
    rw [List.pairwise_cons] at hl
    obtain ⟨hy, hys⟩ := hl
    by_cases h : lexLt y x = true
    · simp only [insertSorted, h, if_true]
      rw [List.pairwise_cons]
      refine ⟨?_, ih hys⟩
      intro z hz
      have hz2 := (insertSorted_perm x ys).mem_iff.1 hz
      rcases List.mem_cons.1 hz2 with hz2 | hz2
      · subst hz2; exact lexLt_asymm h
      · exact hy z hz2
    · have hb : lexLt y x = false := by
        cases hx2 : lexLt y x with
        | false => rfl
        | true => exact absurd hx2 h
      rw [show insertSorted x (y :: ys) = x :: y :: ys from by simp [insertSorted, hb]]
      rw [List.pairwise_cons]
      constructor
      · intro z hz
        rcases List.mem_cons.1 hz with hz | hz
        · subst hz; exact hb
        · cases hzx : lexLt z x with
          | false => rfl
          | true =>
            exfalso
            have hyz := hy z hz
            cases hxy : lexLt x y with
            | true =>
              have htr := lexLt_trans hzx hxy
              rw [hyz] at htr
              exact Bool.false_ne_true htr
            | false =>
              have hxyeq := lexLt_eq_of_not hxy hb
              subst hxyeq
              rw [hyz] at hzx
              exact Bool.false_ne_true hzx
      · exact List.pairwise_cons.2 ⟨hy, hys⟩

theorem sortStrs_sorted (l : List Str) :
    (sortStrs l).Pairwise (fun a b => lexLt b a = false) := by
  induction l with
  | nil => simp [sortStrs]
  | cons a l ih => exact insertSorted_sorted a (sortStrs l) ih

theorem sortStrs_pairwise_lt {l : List Str} (hnd : l.Nodup) :
    (sortStrs l).Pairwise (fun a b => lexLt a b = true) := by
  have hnd2 : (sortStrs l).Nodup := (sortStrs_perm l).nodup_iff.2 hnd
  have hs := (sortStrs_sorted l).and hnd2
  refine hs.imp ?_
  rintro a b ⟨hba, hne⟩
  cases h : lexLt a b with
  | true => rfl
  | false => exact absurd (lexLt_eq_of_not h hba) hne

/-- In a strictly sorted list, the number of elements below the `j`-th entry
is exactly `j`. -/
theorem countP_lt_getElem_of_sorted : ∀ (l : List Str),
    l.Pairwise (fun a b => lexLt a b = true) →
    ∀ (j : Nat) (hj : j < l.length),
    l.countP (fun w => lexLt w l[j]) = j := by
  intro l
  induction l with
  | nil => intro _ j hj; simp at hj
  | cons a l ih =>
    intro hp j hj
    rw [List.pairwise_cons] at hp
    obtain ⟨ha, hl⟩ := hp
    cases j with
    | zero =>
      simp only [List.getElem_cons_zero, List.countP_cons, lexLt_irrefl]
      have h0 : l.countP (fun w => lexLt w a) = 0 :=
        List.countP_eq_zero.2 (fun z hz => by simp [lexLt_asymm (ha z hz)])
      simp [h0]
    | succ j =>
      simp only [List.getElem_cons_succ, List.countP_cons]
      have hj2 : j < l.length := by simpa using hj
      have hmem : l[j] ∈ l := List.getElem_mem hj2
      rw [ih hl j hj2, ha l[j] hmem]
      simp

/-! ## Map-structure lemmas -/

theorem mem_mapKeys {m : CodeMap} {k : Str} : k ∈ mapKeys m ↔ ∃ v, (k, v) ∈ m := by
  unfold mapKeys
  rw [List.mem_map]
  constructor
  · rintro ⟨⟨k2, v⟩, hm, rfl⟩; exact ⟨v, hm⟩
  · rintro ⟨v, hv⟩; exact ⟨(k, v), hv, rfl⟩

theorem mapKeys_of_mem {m : CodeMap} {kv : Str × Int} (h : kv ∈ m) : kv.1 ∈ mapKeys m :=
  List.mem_map.2 ⟨kv, h, rfl⟩

theorem mapKeys_filter (g : Str → Bool) (m : CodeMap) :
    mapKeys (m.filter (fun kv => g kv.1)) = (mapKeys m).filter g := by
  unfold mapKeys
  rw [List.filter_map]
  rfl

theorem mapKeys_map_fst_preserving (f : Str × Int → Str × Int)
    (hf : ∀ kv, (f kv).1 = kv.1) (m : CodeMap) : mapKeys (m.map f) = mapKeys m := by
  unfold mapKeys
  rw [List.map_map]
  exact List.map_congr_left (fun kv _ => hf kv)

theorem mapKeys_append (m1 m2 : CodeMap) :
    mapKeys (m1 ++ m2) = mapKeys m1 ++ mapKeys m2 := by
  unfold mapKeys; rw [List.map_append]

theorem mapInsert_fresh {m : CodeMap} {k : Str} (hk : k ∉ mapKeys m) (v : Int) :
    mapInsert m k v = m ++ [(k, v)] := by
  unfold mapInsert
  rw [if_neg]
  rw [List.find?_eq_none.2]
  · simp
  · intro kv hkv
    simp only [decide_eq_true_eq]
    intro heq
    exact hk (heq ▸ mapKeys_of_mem hkv)

theorem foldl_mapInsert_fresh {β : Type} (g : β → Str × Int) :
    ∀ (l : List β) (m : CodeMap),
    (∀ b ∈ l, (g b).1 ∉ mapKeys m) → ((l.map g).map Prod.fst).Nodup →
    l.foldl (fun c b => mapInsert c (g b).1 (g b).2) m = m ++ l.map g := by
  intro l
  induction l with
  | nil => intro m _ _; simp
  | cons b l ih =>
    intro m hfresh hnd
    have hb : (g b).1 ∉ mapKeys m := hfresh b (List.mem_cons_self b l)
    have hstep : mapInsert m (g b).1 (g b).2 = m ++ [g b] := by
      rw [mapInsert_fresh hb]
    simp only [List.foldl_cons, hstep]
    simp only [List.map_cons, List.map_cons, List.nodup_cons] at hnd
    obtain ⟨hbn, hnd2⟩ := hnd
    rw [ih (m ++ [g b]) ?_ hnd2]
    · rw [List.append_assoc]
      rfl
    · intro b2 hb2
      rw [mapKeys_append]
      rw [List.mem_append]
      rintro (h | h)
      · exact hfresh b2 (List.mem_cons_of_mem _ hb2) h
      · simp only [mapKeys, List.map_cons, List.map_nil, List.mem_singleton] at h
        apply hbn
        rw [← h]
        exact List.mem_map.2 ⟨g b2, List.mem_map.2 ⟨b2, hb2, rfl⟩, rfl⟩

theorem wordOver_head {alpha : List Rune} {w : Str} (hw : w ≠ [])
    (hover : wordOver alpha w) : ∃ a ∈ alpha, w.head? = some a := by
  cases w with
  | nil => exact absurd rfl hw
  | cons a xs => exact ⟨a, hover a (List.mem_cons_self a xs), rfl⟩

theorem rankOf_lt_length {alpha : List Rune} {ks : List Str} {x : Str} (hx : x ∈ ks) :
    rankOf alpha ks x < ks.length := by
  unfold rankOf
  have h := countP_lt_of_witness (fun j => keyLt alpha j x) (fun _ => true) ks
    (fun _ _ _ => rfl) x hx rfl (keyLt_irrefl alpha x)
  rwa [List.countP_true] at h

theorem rankOf_strict_mono {alpha : List Rune} {ks : List Str} {x y : Str}
    (hx : x ∈ ks) (hxy : keyLt alpha x y = true) :
    rankOf alpha ks x < rankOf alpha ks y :=
  countP_lt_of_witness _ _ ks (fun j _ hj => keyLt_trans hj hxy) x hx hxy
    (keyLt_irrefl alpha x)

theorem rankOf_inj {alpha : List Rune} (hnd : alpha.Nodup) {ks : List Str}
    (hgood : ∀ k ∈ ks, k ≠ [] ∧ wordOver alpha k) {x y : Str}
    (hx : x ∈ ks) (hy : y ∈ ks) (h : rankOf alpha ks x = rankOf alpha ks y) : x = y := by
  by_contra hne
  obtain ⟨hxe, hxo⟩ := hgood x hx
  obtain ⟨hye, hyo⟩ := hgood y hy
  have hheads : x.head? = y.head? ∨
      (∃ a ∈ alpha, x.head? = some a) ∧ (∃ b ∈ alpha, y.head? = some b) :=
    Or.inr ⟨wordOver_head hxe hxo, wordOver_head hye hyo⟩
  cases hxy : keyLt alpha x y with
  | true => exact absurd h (Nat.ne_of_lt (rankOf_strict_mono hx hxy))
  | false =>
    have hyx := keyLt_total hnd (fun _ => hheads) hne hxy
    exact absurd h.symm (Nat.ne_of_lt (rankOf_strict_mono hy hyx))

theorem ranks_perm_range {alpha : List Rune} (hnd : alpha.Nodup) {ks : List Str}
    (hknd : ks.Nodup) (hgood : ∀ k ∈ ks, k ≠ [] ∧ wordOver alpha k) :
    (ks.map (fun k => rankOf alpha ks k)).Perm (List.range ks.length) := by
  have hnd2 : (ks.map (fun k => rankOf alpha ks k)).Nodup :=
    hknd.map_on (fun x hx y hy hxy => rankOf_inj hnd hgood hx hy hxy)
  have hsub : (ks.map (fun k => rankOf alpha ks k)) ⊆ List.range ks.length := by
    intro r hr
    rw [List.mem_map] at hr
    obtain ⟨k, hk, rfl⟩ := hr
    exact List.mem_range.2 (rankOf_lt_length hk)
  have hsp := List.subperm_of_subset hnd2 hsub
  refine hsp.perm_of_length_le ?_
  simp

/-! ## Index and range counting lemmas (for the one-level development) -/

theorem indexOf_getElem_of_nodup {alpha : List Rune} (hnd : alpha.Nodup)
    {i : Nat} (hi : i < alpha.length) : alpha.indexOf alpha[i] = i := by
  have hmem : alpha[i] ∈ alpha := List.getElem_mem hi
  have hlt : alpha.indexOf alpha[i] < alpha.length := List.indexOf_lt_length.2 hmem
  have hget : alpha[alpha.indexOf alpha[i]] = alpha[i] := List.getElem_indexOf hlt
  exact (hnd.getElem_inj_iff.1 hget)

theorem map_indexOf_eq_range {alpha : List Rune} (hnd : alpha.Nodup) :
    alpha.map (fun b => alpha.indexOf b) = List.range alpha.length := by
  refine List.ext_getElem (by simp) ?_
  intro n h1 h2
  have hn : n < alpha.length := by simpa using h1
  rw [List.getElem_map, List.getElem_range, indexOf_getElem_of_nodup hnd hn]

theorem countP_range_lt : ∀ (n i : Nat), i ≤ n →
    (List.range n).countP (fun t => decide (t < i)) = i := by
  intro n
  induction n with
  | zero => intro i hi; interval_cases i; simp
  | succ n ih =>
    intro i hi
    rw [List.range_succ, List.countP_append]
    rcases Nat.lt_or_ge i (n + 1) with h | h
    · have hin : i ≤ n := Nat.lt_succ_iff.1 h
      rw [ih i hin]
      have : ¬ (n < i) := Nat.not_lt.2 hin
      simp [this]
    · have hieq : i = n + 1 := Nat.le_antisymm hi h
      subst hieq
      have hall : (List.range n).countP (fun t => decide (t < n + 1)) = n := by
        rw [List.countP_eq_length.2]
        · exact List.length_range n
        · intro t ht
          simp only [decide_eq_true_eq]
          exact Nat.lt_succ_of_lt (List.mem_range.1 ht)
      rw [hall]
      simp

theorem foldl_min_le (l : List (Str × Int)) :
    ∀ (init : Int),
    (l.foldl (fun acc kv => if kv.2 < acc then kv.2 else acc) init) ≤ init ∧
    ∀ kv ∈ l, (l.foldl (fun acc kv => if kv.2 < acc then kv.2 else acc) init) ≤ kv.2 := by
  induction l with
  | nil => intro init; exact ⟨le_refl _, fun kv h => absurd h (List.not_mem_nil kv)⟩
  | cons a l ih =>
    intro init
    simp only [List.foldl_cons]
    by_cases h : a.2 < init
    · rw [if_pos h]
      obtain ⟨h1, h2⟩ := ih a.2
      refine ⟨h1.trans (le_of_lt h), ?_⟩
      intro kv hkv
      rcases List.mem_cons.1 hkv with hkv | hkv
      · subst hkv; exact h1
      · exact h2 kv hkv
    · rw [if_neg h]
      obtain ⟨h1, h2⟩ := ih init
      refine ⟨h1, ?_⟩
      intro kv hkv
      rcases List.mem_cons.1 hkv with hkv | hkv
      · subst hkv; exact h1.trans (le_of_not_lt h)
      · exact h2 kv hkv

theorem foldl_min_mem (l : List (Str × Int)) :
    ∀ (init : Int),
    (l.foldl (fun acc kv => if kv.2 < acc then kv.2 else acc) init) = init ∨
    ∃ kv ∈ l, (l.foldl (fun acc kv => if kv.2 < acc then kv.2 else acc) init) = kv.2 := by
  induction l with
  | nil => intro init; exact Or.inl rfl
  | cons a l ih =>
    intro init
    simp only [List.foldl_cons]
    by_cases h : a.2 < init
    · rw [if_pos h]
      rcases ih a.2 with h2 | ⟨kv, hkv, h2⟩
      · exact Or.inr ⟨a, List.mem_cons_self a l, h2⟩
      · exact Or.inr ⟨kv, List.mem_cons_of_mem _ hkv, h2⟩
    · rw [if_neg h]
      rcases ih init with h2 | ⟨kv, hkv, h2⟩
      · exact Or.inl h2
      · exact Or.inr ⟨kv, List.mem_cons_of_mem _ hkv, h2⟩

theorem reduceAt_spec (p : PrefixCode) (s : Str) (hs : ¬ (s = [] ∨ s = emptyString))
    (hne : ¬ (p.code.filter (fun kv => s.isPrefixOf kv.1)).length = 0) :
    reduceAt p s = ({ p with code := reduceResult p.code s }, true) := by
  unfold reduceAt reduceResult reduceMin
  rw [if_neg hs, if_neg hne]

theorem reduceAt_noop (p : PrefixCode) (s : Str) (hs : ¬ (s = [] ∨ s = emptyString))
    (hne : (p.code.filter (fun kv => s.isPrefixOf kv.1)).length = 0) :
    reduceAt p s = (p, false) := by
  unfold reduceAt
  rw [if_neg hs, if_pos hne]

theorem reduceAt_reset (p : PrefixCode) (s : Str) (hs : s = [] ∨ s = emptyString) :
    reduceAt p s = (p, true) := by
  unfold reduceAt
  rw [if_pos hs]

/-! ## Membership and counting facts for the `ReduceAt` filters -/

theorem mem_filter_pre {m : CodeMap} {s : Str} {kv : Str × Int} :
    kv ∈ m.filter (fun kv2 => s.isPrefixOf kv2.1) ↔ kv ∈ m ∧ s <+: kv.1 := by
  rw [List.mem_filter, List.isPrefixOf_iff_prefix]

theorem mem_filter_npre {m : CodeMap} {s : Str} {kv : Str × Int} :
    kv ∈ m.filter (fun kv2 => ¬ s.isPrefixOf kv2.1) ↔ kv ∈ m ∧ ¬ s <+: kv.1 := by
  rw [List.mem_filter]
  simp [List.isPrefixOf_iff_prefix]

theorem filter_npre_eq_not {m : CodeMap} {s : Str} :
    m.filter (fun kv => ¬ s.isPrefixOf kv.1)
      = m.filter (fun kv => !(s.isPrefixOf kv.1)) :=
  List.filter_congr (fun kv _ => by cases h : s.isPrefixOf kv.1 <;> simp [h])

theorem keys_split_perm (m : CodeMap) (s : Str) :
    ((mapKeys (m.filter (fun kv => s.isPrefixOf kv.1))) ++
      (mapKeys (m.filter (fun kv => ¬ s.isPrefixOf kv.1)))).Perm (mapKeys m) := by
  rw [filter_npre_eq_not, ← mapKeys_append]
  exact (List.filter_append_perm (fun kv => s.isPrefixOf kv.1) m).map Prod.fst

theorem mapKeys_filter_sublist (g : Str × Int → Bool) (m : CodeMap) :
    (mapKeys (m.filter g)).Sublist (mapKeys m) :=
  (List.filter_sublist m).map Prod.fst

/-! ## `ReduceAt` preserves the invariant -/

theorem reduceResult_wf {alpha : List Rune} {m : CodeMap} (ha : AlphaWF alpha)
    (hwf : CodeWF alpha m) {s : Str} (hs : s ≠ []) (hso : wordOver alpha s)
    (hne : ¬ (m.filter (fun kv => s.isPrefixOf kv.1)).length = 0) :
    CodeWF alpha (reduceResult m s) := by
  obtain ⟨hnalpha, hnem, hnsent⟩ := ha
  obtain ⟨hndk, hgood, hincomp, hlabels⟩ := hwf
  -- abbreviations
  set matched := m.filter (fun kv => s.isPrefixOf kv.1) with hmatched_def
  set rest := m.filter (fun kv => ¬ s.isPrefixOf kv.1) with hrest_def
  set mstar := reduceMin m s with hmstar_def
  set cnt := matched.length with hcnt_def
  set f : Str × Int → Str × Int :=
    fun kv => if kv.2 > mstar then (kv.1, kv.2 + 1 - (cnt : Int)) else kv with hf_def
  -- basic structure of the result
  have hs_not_rest : s ∉ mapKeys rest := by
    intro hmem
    obtain ⟨v, hv⟩ := mem_mapKeys.1 hmem
    exact (mem_filter_npre.1 hv).2 (List.prefix_refl s)
  have hresult : reduceResult m s = rest.map f ++ [(s, mstar)] := by
    unfold reduceResult
    rw [← hmatched_def, ← hrest_def, ← hmstar_def, ← hcnt_def, ← hf_def]
    rw [mapInsert_fresh hs_not_rest]
    rw [List.map_append]
    have : f (s, mstar) = (s, mstar) := by
      simp only [hf_def, gt_iff_lt, lt_irrefl, if_false]
    simp [this]
  have hf_fst : ∀ kv, (f kv).1 = kv.1 := by
    intro kv
    simp only [hf_def]
    split <;> rfl
  have hkeys : mapKeys (reduceResult m s) = mapKeys rest ++ [s] := by
    rw [hresult, mapKeys_append, mapKeys_map_fst_preserving f hf_fst]
    rfl
  -- membership facts for keys
  have hrest_key : ∀ x ∈ mapKeys rest, x ∈ mapKeys m ∧ ¬ s <+: x := by
    intro x hx
    obtain ⟨v, hv⟩ := mem_mapKeys.1 hx
    obtain ⟨hvm, hvs⟩ := mem_filter_npre.1 hv
    exact ⟨mapKeys_of_mem hvm, hvs⟩
  have hmatched_key : ∀ y ∈ mapKeys matched, y ∈ mapKeys m ∧ s <+: y := by
    intro y hy
    obtain ⟨v, hv⟩ := mem_mapKeys.1 hy
    obtain ⟨hvm, hvs⟩ := mem_filter_pre.1 hv
    exact ⟨mapKeys_of_mem hvm, hvs⟩
  have hmatched_ne : ∃ kv0, kv0 ∈ matched := by
    refine List.exists_mem_of_ne_nil matched ?_
    intro h
    apply hne
    rw [hcnt_def, h]
    rfl
  -- s is incomparable with every rest key
  have hs_incomp : ∀ x ∈ mapKeys rest, ¬ s <+: x ∧ ¬ x <+: s := by
    intro x hx
    obtain ⟨hxm, hxs⟩ := hrest_key x hx
    refine ⟨hxs, ?_⟩
    intro hxps
    obtain ⟨kv0, hkv0⟩ := hmatched_ne
    have hy0 := hmatched_key kv0.1 (mapKeys_of_mem hkv0)
    have hxy0 : x ≠ kv0.1 := by
      rintro rfl
      exact hxs hy0.2
    exact hincomp x hxm kv0.1 hy0.1 hxy0 (hxps.trans hy0.2)
  -- goodness facts
  have hks_good : ∀ x ∈ mapKeys m, x ≠ [] ∧ wordOver alpha x := hgood
  have hx_heads : ∀ x ∈ mapKeys m, ∃ a ∈ alpha, x.head? = some a := by
    intro x hx
    exact wordOver_head (hgood x hx).1 (hgood x hx).2
  have hs_head : ∃ a ∈ alpha, s.head? = some a := wordOver_head hs hso
  -- keyLt transfer between s and the matched keys, seen from a rest key
  have htransfer : ∀ x ∈ mapKeys rest, ∀ y ∈ mapKeys matched,
      keyLt alpha y x = keyLt alpha s x ∧ keyLt alpha x y = keyLt alpha x s := by
    intro x hx y hy
    obtain ⟨hxm, _⟩ := hrest_key x hx
    obtain ⟨hym, hsy⟩ := hmatched_key y hy
    obtain ⟨u, rfl⟩ := hsy
    obtain ⟨hxe, hxo⟩ := hgood x hxm
    constructor
    · exact keyLt_extension_left hnalpha hxe hs (hx_heads x hxm) hs_head
        (hs_incomp x hx).2 (hs_incomp x hx).1 u
    · exact keyLt_extension_right hnalpha hxe hs (hx_heads x hxm) hs_head
        (hs_incomp x hx).2 (hs_incomp x hx).1 u
  -- the minimum is the label of some matched entry, and below all of them
  have hlab_lt : ∀ kv ∈ matched, kv.2 < (m.length : Int) := by
    intro kv hkv
    have hkvm := (mem_filter_pre.1 hkv).1
    rw [hlabels kv hkvm]
    have : rankOf alpha (mapKeys m) kv.1 < (mapKeys m).length :=
      rankOf_lt_length (mapKeys_of_mem hkvm)
    rw [Int.ofNat_lt]
    simpa [mapKeys] using this
  have hmin_le : ∀ kv ∈ matched, mstar ≤ kv.2 := by
    intro kv hkv
    rw [hmstar_def]
    unfold reduceMin
    exact (foldl_min_le _ (m.length : Int)).2 kv (hmatched_def ▸ hkv)
  have hmin_mem : ∃ kv0 ∈ matched, mstar = kv0.2 := by
    rcases foldl_min_mem matched (m.length : Int) with heq | hex
    · exfalso
      obtain ⟨kv0, hkv0⟩ := hmatched_ne
      have h1 := hmin_le kv0 hkv0
      have h2 := hlab_lt kv0 hkv0
      have : mstar = (m.length : Int) := by
        rw [hmstar_def]; unfold reduceMin
        rw [← hmatched_def]
        exact heq
      omega
    · obtain ⟨kv0, hkv0, hkv0e⟩ := hex
      refine ⟨kv0, hkv0, ?_⟩
      rw [hmstar_def]; unfold reduceMin
      rw [← hmatched_def]
      exact hkv0e
  obtain ⟨kv0, hkv0, hmstar_eq⟩ := hmin_mem
  have hkv0m : kv0 ∈ m := (mem_filter_pre.1 hkv0).1
  have hy0keys : kv0.1 ∈ mapKeys matched := mapKeys_of_mem hkv0
  have hmstar_rank : mstar = (rankOf alpha (mapKeys m) kv0.1 : Int) := by
    rw [hmstar_eq]; exact hlabels kv0 hkv0m
  -- countP over matched keys is constant from a rest key viewpoint
  have hcount_matched : ∀ x ∈ mapKeys rest,
      (mapKeys matched).countP (fun j => keyLt alpha j x)
        = if keyLt alpha s x then (mapKeys matched).length else 0 := by
    intro x hx
    exact countP_eq_of_const _ (keyLt alpha s x) _
      (fun y hy => (htransfer x hx y hy).1)
  have hsplit : ∀ (x : Str),
      (mapKeys m).countP (fun j => keyLt alpha j x)
        = (mapKeys matched).countP (fun j => keyLt alpha j x)
          + (mapKeys rest).countP (fun j => keyLt alpha j x) := by
    intro x
    rw [← (keys_split_perm m s).countP_eq, List.countP_append]
  have hcnt_keys : (mapKeys matched).length = cnt := by
    rw [hcnt_def]; exact List.length_map _ _
  -- now the four components of CodeWF
  refine ⟨?_, ?_, ?_, ?_⟩
  · -- nodup keys
    rw [hkeys]
    refine List.Nodup.append ?_ (List.nodup_singleton s) ?_
    · exact (mapKeys_filter_sublist _ m).nodup hndk
    · intro a hamem hasing
      rw [List.mem_singleton] at hasing
      subst hasing
      exact hs_not_rest hamem
  · -- keys are nonempty alphabet words
    rw [hkeys]
    intro k hk
    rcases List.mem_append.1 hk with hk | hk
    · exact hgood k (hrest_key k hk).1
    · rw [List.mem_singleton] at hk
      subst hk
      exact ⟨hs, hso⟩
  · -- prefix incomparability
    rw [hkeys]
    intro a hamem b hbmem hab
    rcases List.mem_append.1 hamem with hag | hag <;>
      rcases List.mem_append.1 hbmem with hbg | hbg
    · exact hincomp a (hrest_key a hag).1 b (hrest_key b hbg).1 hab
    · rw [List.mem_singleton] at hbg
      subst hbg
      exact (hs_incomp a hag).2
    · rw [List.mem_singleton] at hag
      subst hag
      exact (hs_incomp b hbg).1
    · rw [List.mem_singleton] at hag hbg
      exact absurd (hag.trans hbg.symm) hab
  · -- labels are ranks
    intro kv hkv
    rw [hresult] at hkv
    rw [hkeys]
    rcases List.mem_append.1 hkv with hkv | hkv
    · -- a relabeled rest entry
      rw [List.mem_map] at hkv
      obtain ⟨kv1, hkv1, rfl⟩ := hkv
      have hx := mapKeys_of_mem hkv1
      obtain ⟨hkv1m, hkv1s⟩ := mem_filter_npre.1 hkv1
      have hv1 : kv1.2 = (rankOf alpha (mapKeys m) kv1.1 : Int) := hlabels kv1 hkv1m
      have hxk := mapKeys_of_mem hkv1m
      have hnewrank : rankOf alpha (mapKeys rest ++ [s]) kv1.1
          = (mapKeys rest).countP (fun j => keyLt alpha j kv1.1)
            + if keyLt alpha s kv1.1 then 1 else 0 := by
        unfold rankOf
        rw [List.countP_append]
        simp [List.countP_cons]
      have hold : rankOf alpha (mapKeys m) kv1.1
          = (if keyLt alpha s kv1.1 then cnt else 0)
            + (mapKeys rest).countP (fun j => keyLt alpha j kv1.1) := by
        unfold rankOf
        rw [hsplit kv1.1, hcount_matched kv1.1 hx, hcnt_keys]
      have hy0x : keyLt alpha kv0.1 kv1.1 = keyLt alpha s kv1.1 :=
        (htransfer kv1.1 hx kv0.1 hy0keys).1
      have hxy0 : keyLt alpha kv1.1 kv0.1 = keyLt alpha kv1.1 s :=
        (htransfer kv1.1 hx kv0.1 hy0keys).2
      cases hc : keyLt alpha s kv1.1 with
      | true =>
        -- the entry is shifted
        have hrk : rankOf alpha (mapKeys m) kv0.1 < rankOf alpha (mapKeys m) kv1.1 :=
          rankOf_strict_mono (mapKeys_of_mem hkv0m) (hy0x.trans hc)
        have hshift : kv1.2 > mstar := by
          rw [hv1, hmstar_rank]
          exact_mod_cast hrk
        have hfe : f kv1 = (kv1.1, kv1.2 + 1 - (cnt : Int)) := by
          simp only [hf_def]
          rw [if_pos hshift]
        rw [hfe]
        simp only
        rw [hnewrank, hv1, hold, hc]
        simp only [if_true]
        push_cast
        ring
      | false =>
        -- the entry keeps its label
        have hxs_ne : kv1.1 ≠ s := by
          rintro rfl
          exact hs_not_rest hx
        have hsx : keyLt alpha kv1.1 s = true := by
          refine keyLt_total hnalpha ?_ (fun h => hxs_ne h.symm) hc
          intro _
          exact Or.inr ⟨hs_head, hx_heads kv1.1 hxk⟩
        have hrk : rankOf alpha (mapKeys m) kv1.1 < rankOf alpha (mapKeys m) kv0.1 :=
          rankOf_strict_mono hxk (hxy0.trans hsx)
        have hnoshift : ¬ kv1.2 > mstar := by
          rw [hv1, hmstar_rank]
          intro hgt
          have : rankOf alpha (mapKeys m) kv0.1 < rankOf alpha (mapKeys m) kv1.1 := by
            exact_mod_cast hgt
          omega
        have hfe : f kv1 = kv1 := by
          simp only [hf_def]
          rw [if_neg hnoshift]
        rw [hfe, hnewrank, hv1, hold, hc]
        simp
    · -- the inserted entry (s, mstar)
      rw [List.mem_singleton] at hkv
      subst hkv
      simp only
      have hnewrank : rankOf alpha (mapKeys rest ++ [s]) s
          = (mapKeys rest).countP (fun j => keyLt alpha j s) := by
        unfold rankOf
        rw [List.countP_append]
        simp [List.countP_cons, keyLt_irrefl]
      have hzero : (mapKeys matched).countP (fun j => keyLt alpha j kv0.1) = 0 := by
        rw [List.countP_eq_zero]
        intro y hy hyy0
        obtain ⟨v, hv⟩ := mem_mapKeys.1 hy
        have hvm : (y, v) ∈ m := (mem_filter_pre.1 hv).1
        have hyy0b : keyLt alpha y kv0.1 = true := hyy0
        have hrk : rankOf alpha (mapKeys m) y < rankOf alpha (mapKeys m) kv0.1 :=
          rankOf_strict_mono (mapKeys_of_mem hvm) hyy0b
        have h2 : v = (rankOf alpha (mapKeys m) y : Int) := hlabels (y, v) hvm
        have h1 : mstar ≤ v := hmin_le (y, v) hv
        rw [hmstar_rank, h2] at h1
        have h3 : rankOf alpha (mapKeys m) kv0.1 ≤ rankOf alpha (mapKeys m) y := by
          exact_mod_cast h1
        omega
      have hrestpart : (mapKeys rest).countP (fun j => keyLt alpha j kv0.1)
          = (mapKeys rest).countP (fun j => keyLt alpha j s) := by
        refine List.countP_congr ?_
        intro x hx
        rw [(htransfer x hx kv0.1 hy0keys).2]
      rw [hnewrank, hmstar_rank]
      unfold rankOf
      rw [hsplit kv0.1, hzero, hrestpart]
      omega

/-! ## Properties of the sibling/fan block -/

theorem mem_sibList {alpha : List Rune} {spine u : Str} :
    u ∈ sibList alpha spine ↔ ∃ jj, jj < spine.length ∧
      ∃ r ∈ alpha, ¬ r = spine.getD jj 0 ∧ u = spine.take jj ++ [r] := by
  unfold sibList
  rw [List.mem_flatMap]
  constructor
  · rintro ⟨jj, hjj, hu⟩
    rw [List.mem_map] at hu
    obtain ⟨r, hr, rfl⟩ := hu
    rw [List.mem_filter] at hr
    exact ⟨jj, List.mem_range.1 hjj, r, hr.1, by simpa using hr.2, rfl⟩
  · rintro ⟨jj, hjj, r, hr, hne, rfl⟩
    refine ⟨jj, List.mem_range.2 hjj, ?_⟩
    rw [List.mem_map]
    exact ⟨r, List.mem_filter.2 ⟨hr, by simpa using hne⟩, rfl⟩

theorem mem_fanList {alpha : List Rune} {spine u : Str} :
    u ∈ fanList alpha spine ↔ ∃ r ∈ alpha, u = spine ++ [r] := by
  unfold fanList
  rw [List.mem_map]
  constructor
  · rintro ⟨r, hr, rfl⟩; exact ⟨r, hr, rfl⟩
  · rintro ⟨r, hr, rfl⟩; exact ⟨r, hr, rfl⟩

theorem length_sib_elem {spine : Str} {jj : Nat} (hjj : jj < spine.length) (r : Rune) :
    (spine.take jj ++ [r]).length = jj + 1 := by
  rw [List.length_append, List.length_take]
  simp [Nat.min_eq_left (le_of_lt hjj)]

theorem filter_ne_length {alpha : List Rune} (hnd : alpha.Nodup) {x : Rune}
    (hx : x ∈ alpha) :
    (alpha.filter (fun r => ¬ r = x)).length = alpha.length - 1 := by
  have h1 : alpha.filter (fun r => ¬ r = x) = alpha.filter (fun r => r != x) :=
    List.filter_congr (fun r _ => by cases h : r == x <;> simp_all)
  rw [h1, ← hnd.erase_eq_filter x, List.length_erase_of_mem hx]

theorem length_sibList {alpha : List Rune} (hnd : alpha.Nodup) {spine : Str}
    (hsp : wordOver alpha spine) :
    (sibList alpha spine).length = spine.length * (alpha.length - 1) := by
  unfold sibList
  rw [List.length_flatMap]
  have hmap : (List.range spine.length).map
      (List.length ∘ fun jj => (alpha.filter (fun r => ¬ r = spine.getD jj 0)).map
        (fun r => spine.take jj ++ [r]))
      = (List.range spine.length).map (fun _ => alpha.length - 1) := by
    refine List.map_congr_left ?_
    intro jj hjj
    have hjj2 : jj < spine.length := List.mem_range.1 hjj
    have hget : spine.getD jj 0 = spine[jj] := List.getD_eq_getElem spine 0 hjj2
    have hmem : spine[jj] ∈ alpha := hsp _ (List.getElem_mem hjj2)
    simp only [Function.comp_apply, List.length_map]
    rw [hget, filter_ne_length hnd hmem]
  rw [hmap]
  have hrep : (List.range spine.length).map (fun _ => alpha.length - 1)
      = List.replicate spine.length (alpha.length - 1) := by
    rw [List.eq_replicate_iff]
    constructor
    · rw [List.length_map, List.length_range]
    · intro b hb
      rw [List.mem_map] at hb
      obtain ⟨_, _, rfl⟩ := hb
      rfl
  rw [hrep, List.sum_replicate, smul_eq_mul]

theorem length_fanList (alpha : List Rune) (spine : Str) :
    (fanList alpha spine).length = alpha.length := List.length_map _ _

theorem buildToAppend_eq_raw {alpha : List Rune} (hnd : alpha.Nodup) {spine : Str}
    (hsp : wordOver alpha spine) {n : Nat}
    (hn : n = spine.length * (alpha.length - 1) + alpha.length) :
    buildToAppend alpha spine n = sibList alpha spine ++ fanList alpha spine := by
  unfold buildToAppend
  have hlen : (sibList alpha spine ++ fanList alpha spine).length = n := by
    rw [List.length_append, length_sibList hnd hsp, length_fanList, hn]
  show (sibList alpha spine ++ fanList alpha spine)
      ++ List.replicate (n - (sibList alpha spine ++ fanList alpha spine).length) []
      = sibList alpha spine ++ fanList alpha spine
  rw [hlen, Nat.sub_self]
  simp

theorem sib_not_prefix {spine : Str} {jj : Nat} (hjj : jj < spine.length) {r : Rune}
    (hr : ¬ r = spine[jj]) (w : Str) : ¬ (spine.take jj ++ [r]) <+: (spine ++ w) := by
  intro hpre
  have hlen : (spine.take jj ++ [r]).length = jj + 1 := length_sib_elem hjj r
  have hsp : spine <+: spine ++ w := List.prefix_append spine w
  have h2 : (spine.take jj ++ [r]) <+: spine := by
    refine List.prefix_of_prefix_length_le hpre hsp ?_
    rw [hlen]
    exact hjj
  have h3 : spine.take jj ++ [r] = spine.take (jj + 1) := by
    rw [List.prefix_iff_eq_take] at h2
    rw [h2, hlen]
  have h4 : spine.take (jj + 1) = spine.take jj ++ [spine[jj]] := by
    rw [List.take_succ, List.getElem?_eq_getElem hjj]
    rfl
  rw [h4] at h3
  have h5 : [r] = [spine[jj]] := List.append_cancel_left h3
  have h6 : r = spine[jj] := by injection h5
  exact hr h6

theorem raw_elem_good {alpha : List Rune} {spine u : Str}
    (hsp : wordOver alpha spine)
    (hu : u ∈ sibList alpha spine ++ fanList alpha spine) :
    u ≠ [] ∧ wordOver alpha u := by
  rcases List.mem_append.1 hu with h | h
  · obtain ⟨jj, hjj, r, hr, hne, rfl⟩ := mem_sibList.1 h
    refine ⟨by simp, ?_⟩
    intro x hx
    rcases List.mem_append.1 hx with hx | hx
    · exact hsp x (List.mem_of_mem_take hx)
    · rw [List.mem_singleton] at hx
      subst hx
      exact hr
  · obtain ⟨r, hr, rfl⟩ := mem_fanList.1 h
    refine ⟨by simp, ?_⟩
    intro x hx
    rcases List.mem_append.1 hx with hx | hx
    · exact hsp x hx
    · rw [List.mem_singleton] at hx
      subst hx
      exact hr

theorem sib_not_prefix_spine {spine : Str} {jj : Nat} (hjj : jj < spine.length)
    {r : Rune} (hr : ¬ r = spine[jj]) : ¬ (spine.take jj ++ [r]) <+: spine := by
  have h := sib_not_prefix hjj hr []
  rwa [List.append_nil] at h

theorem raw_incomp {alpha : List Rune} {spine : Str} :
    ∀ u ∈ sibList alpha spine ++ fanList alpha spine,
    ∀ v ∈ sibList alpha spine ++ fanList alpha spine,
    u ≠ v → ¬ u <+: v := by
  intro u hu v hv hne hpre
  rcases List.mem_append.1 hu with hus | huf
  · obtain ⟨jj, hjj, r, _, hrne, rfl⟩ := mem_sibList.1 hus
    have hget : spine.getD jj 0 = spine[jj] := List.getD_eq_getElem spine 0 hjj
    rw [hget] at hrne
    rcases List.mem_append.1 hv with hvs | hvf
    · obtain ⟨jj2, hjj2, r2, _, _, rfl⟩ := mem_sibList.1 hvs
      have hlu := length_sib_elem hjj r
      have hlv := length_sib_elem hjj2 r2
      have hle := hpre.length_le
      rw [hlu, hlv] at hle
      rcases Nat.lt_or_ge jj jj2 with hlt | hge
      · have h1 : spine.take jj2 <+: spine.take jj2 ++ [r2] := List.prefix_append _ _
        have h2 : spine.take jj ++ [r] <+: spine.take jj2 := by
          refine List.prefix_of_prefix_length_le hpre h1 ?_
          rw [hlu, List.length_take, Nat.min_eq_left (le_of_lt hjj2)]
          exact hlt
        have h3 : spine.take jj ++ [r] <+: spine :=
          h2.trans (List.take_prefix jj2 spine)
        exact sib_not_prefix_spine hjj hrne h3
      · have hjeq : jj = jj2 := Nat.le_antisymm (by omega) hge
        subst hjeq
        exact hne (hpre.eq_of_length (by rw [hlu, hlv]))
    · obtain ⟨r2, _, rfl⟩ := mem_fanList.1 hvf
      exact sib_not_prefix hjj hrne [r2] hpre
  · obtain ⟨r, _, rfl⟩ := mem_fanList.1 huf
    rcases List.mem_append.1 hv with hvs | hvf
    · obtain ⟨jj2, hjj2, r2, _, _, rfl⟩ := mem_sibList.1 hvs
      have hle := hpre.length_le
      rw [List.length_append, List.length_singleton, length_sib_elem hjj2 r2] at hle
      omega
    · obtain ⟨r2, _, rfl⟩ := mem_fanList.1 hvf
      exact hne (hpre.eq_of_length (by simp))

theorem flatMap_range_nodup (f : Nat → List Str) : ∀ (n : Nat),
    (∀ j, j < n → (f j).Nodup) → (∀ j, j < n → ∀ u ∈ f j, u.length = j + 1) →
    ((List.range n).flatMap f).Nodup := by
  intro n
  induction n with
  | zero => intro _ _; simp
  | succ n ih =>
    intro hnd hlen
    have hsplit : (List.range (n + 1)).flatMap f = (List.range n).flatMap f ++ f n := by
      rw [List.range_succ, List.flatMap_append]
      simp
    rw [hsplit]
    refine List.Nodup.append ?_ ?_ ?_
    · exact ih (fun j hj => hnd j (Nat.lt_succ_of_lt hj))
        (fun j hj => hlen j (Nat.lt_succ_of_lt hj))
    · exact hnd n (Nat.lt_succ_self n)
    · intro u hu1 hu2
      rw [List.mem_flatMap] at hu1
      obtain ⟨j, hj, hu1⟩ := hu1
      have h1 := hlen j (Nat.lt_succ_of_lt (List.mem_range.1 hj)) u hu1
      have h2 := hlen n (Nat.lt_succ_self n) u hu2
      rw [h1] at h2
      have := List.mem_range.1 hj
      omega

theorem sibList_nodup {alpha : List Rune} (hnd : alpha.Nodup) (spine : Str) :
    (sibList alpha spine).Nodup := by
  unfold sibList
  refine flatMap_range_nodup _ spine.length ?_ ?_
  · intro j _
    refine List.Nodup.map_on ?_ (hnd.filter _)
    intro x _ y _ hxy
    have := List.append_cancel_left hxy
    injection this
  · intro j hj u hu
    rw [List.mem_map] at hu
    obtain ⟨r, _, rfl⟩ := hu
    exact length_sib_elem hj r

theorem fanList_nodup {alpha : List Rune} (hnd : alpha.Nodup) (spine : Str) :
    (fanList alpha spine).Nodup := by
  unfold fanList
  refine List.Nodup.map_on ?_ hnd
  intro x _ y _ hxy
  have := List.append_cancel_left hxy
  injection this

theorem raw_nodup {alpha : List Rune} (hnd : alpha.Nodup) (spine : Str) :
    (sibList alpha spine ++ fanList alpha spine).Nodup := by
  refine List.Nodup.append (sibList_nodup hnd spine) (fanList_nodup hnd spine) ?_
  intro u hu1 hu2
  obtain ⟨jj, hjj, r, _, _, rfl⟩ := mem_sibList.1 hu1
  obtain ⟨r2, _, heq⟩ := mem_fanList.1 hu2
  have h1 := length_sib_elem hjj r
  have h2 : (spine ++ [r2]).length = spine.length + 1 := by simp
  rw [heq, h2] at h1
  omega

theorem expandBlock_keys (pfx : Str) (lab : Int) (ta : List Str) :
    mapKeys (expandBlock pfx lab ta) = ta.map (fun u => pfx ++ u) := by
  unfold expandBlock mapKeys
  rw [List.map_map]
  have h : (Prod.fst ∘ fun ju : Nat × Str => (pfx ++ ju.2, lab + (ju.1 : Int)))
      = (fun u => pfx ++ u) ∘ Prod.snd := rfl
  rw [h, ← List.map_map, List.enum_map_snd]

theorem mem_mapErase {m : CodeMap} {k : Str} {kv : Str × Int} :
    kv ∈ mapErase m k ↔ kv ∈ m ∧ ¬ kv.1 = k := by
  unfold mapErase
  rw [List.mem_filter]
  simp

theorem nodup_filter_eq {ks : List Str} (hnd : ks.Nodup) {x : Str} (hx : x ∈ ks) :
    ks.filter (fun k => k = x) = [x] := by
  induction ks with
  | nil => exact absurd hx (List.not_mem_nil x)
  | cons a l ih =>
    rw [List.nodup_cons] at hnd
    by_cases hax : a = x
    · subst hax
      have hnl : l.filter (fun k => k = a) = [] := by
        rw [List.filter_eq_nil_iff]
        intro k hk
        simp only [decide_eq_true_eq]
        intro heq
        exact hnd.1 (heq ▸ hk)
      simp [List.filter_cons, hnl]
    · have hxl : x ∈ l := by
        rcases List.mem_cons.1 hx with h | h
        · exact absurd h.symm hax
        · exact h
      have := ih hnd.2 hxl
      simp [List.filter_cons, hax, this]

theorem expandAtMain_spec (p : PrefixCode) (s : Str) (kv : Str × Int)
    (hfind : p.code.find? (fun kv2 => kv2.1.isPrefixOf s) = some kv)
    (hfresh : ∀ u ∈ expandToAppend p.alphabet s kv.1,
      (kv.1 ++ u) ∉ mapKeys (expandShift p.code kv.1 kv.2 (expandN p.alphabet s kv.1)))
    (hta : (expandToAppend p.alphabet s kv.1).Nodup) :
    expandAtMain p s = ({ p with code := expandResult p.alphabet p.code s kv }, true) := by
  unfold expandAtMain expandResult
  rw [hfind]
  have hkeysblock : (((expandToAppend p.alphabet s kv.1).enum.map
      (fun ju : Nat × Str => (kv.1 ++ ju.2, kv.2 + (ju.1 : Int)))).map Prod.fst)
      = (expandToAppend p.alphabet s kv.1).map (fun u => kv.1 ++ u) := by
    rw [List.map_map]
    have h : (Prod.fst ∘ fun ju : Nat × Str => (kv.1 ++ ju.2, kv.2 + (ju.1 : Int)))
        = (fun u => kv.1 ++ u) ∘ Prod.snd := rfl
    rw [h, ← List.map_map, List.enum_map_snd]
  have hnd2 : ((((expandToAppend p.alphabet s kv.1).enum.map
      (fun ju : Nat × Str => (kv.1 ++ ju.2, kv.2 + (ju.1 : Int)))).map Prod.fst)).Nodup := by
    rw [hkeysblock]
    refine hta.map_on ?_
    intro x _ y _ hxy
    exact List.append_cancel_left hxy
  have hfr2 : ∀ b ∈ (expandToAppend p.alphabet s kv.1).enum,
      ((fun ju : Nat × Str => (kv.1 ++ ju.2, kv.2 + (ju.1 : Int))) b).1
        ∉ mapKeys (expandShift p.code kv.1 kv.2 (expandN p.alphabet s kv.1)) := by
    rintro ⟨j, u⟩ hb
    obtain ⟨hj, hu⟩ := List.mem_enum hb
    have humem : u ∈ expandToAppend p.alphabet s kv.1 := by
      rw [hu]
      exact List.getElem_mem hj
    exact hfresh u humem
  have hfold : (expandToAppend p.alphabet s kv.1).enum.foldl
      (fun c jv => mapInsert c (kv.1 ++ jv.2) (kv.2 + (jv.1 : Int)))
      (expandShift p.code kv.1 kv.2 (expandN p.alphabet s kv.1))
      = expandShift p.code kv.1 kv.2 (expandN p.alphabet s kv.1)
        ++ expandBlock kv.1 kv.2 (expandToAppend p.alphabet s kv.1) :=
    foldl_mapInsert_fresh (fun ju : Nat × Str => (kv.1 ++ ju.2, kv.2 + (ju.1 : Int)))
      (expandToAppend p.alphabet s kv.1).enum
      (expandShift p.code kv.1 kv.2 (expandN p.alphabet s kv.1)) hfr2 hnd2
  have hres : ∀ c1 c2 : CodeMap, c1 = c2 →
      (({ p with code := c1 } : PrefixCode), true)
        = (({ p with code := c2 } : PrefixCode), true) := by
    intro c1 c2 h
    rw [h]
  exact hres _ _ hfold

/-! ## `ExpandAt` (main case) preserves the invariant -/

theorem expandAtMain_wf {p : PrefixCode} (ha : AlphaWF p.alphabet)
    (hwf : CodeWF p.alphabet p.code) {s : Str} (hso : wordOver p.alphabet s) :
    ((expandAtMain p s).1).alphabet = p.alphabet ∧
    CodeWF p.alphabet ((expandAtMain p s).1).code := by
  obtain ⟨hnalpha, hnem, hnsent⟩ := ha
  obtain ⟨hndk, hgood, hincomp, hlabels⟩ := hwf
  cases hfind : p.code.find? (fun kv2 => kv2.1.isPrefixOf s) with
  | none =>
    unfold expandAtMain
    rw [hfind]
    exact ⟨rfl, hndk, hgood, hincomp, hlabels⟩
  | some kv =>
    have hkvm : kv ∈ p.code := List.mem_of_find?_eq_some hfind
    have hpfx_b := List.find?_some hfind
    have hpfx_pre : kv.1 <+: s := List.isPrefixOf_iff_prefix.1 hpfx_b
    have hpfxk : kv.1 ∈ mapKeys p.code := mapKeys_of_mem hkvm
    obtain ⟨hpfx_ne, hpfx_over⟩ := hgood kv.1 hpfxk
    have hlabkv : kv.2 = (rankOf p.alphabet (mapKeys p.code) kv.1 : Int) := hlabels kv hkvm
    set alpha := p.alphabet with halpha_def
    set ks := mapKeys p.code with hks_def
    set spine := s.drop kv.1.length with hspine_def
    have hspine_over : wordOver alpha spine := by
      intro r hr
      exact hso r (List.mem_of_mem_drop hr)
    have hN_eq : expandN alpha s kv.1 = spine.length * (alpha.length - 1) + alpha.length := by
      unfold expandN
      rw [hspine_def, List.length_drop]
    have hraw_eq : buildToAppend alpha spine (expandN alpha s kv.1)
        = sibList alpha spine ++ fanList alpha spine :=
      buildToAppend_eq_raw hnalpha hspine_over hN_eq
    have hta_def : expandToAppend alpha s kv.1
        = sortStrs (sibList alpha spine ++ fanList alpha spine) := by
      unfold expandToAppend
      rw [← hspine_def, hraw_eq]
    set ta := expandToAppend alpha s kv.1 with hta_def2
    have hta_perm : ta.Perm (sibList alpha spine ++ fanList alpha spine) := by
      rw [hta_def]
      exact sortStrs_perm _
    have hraw_nd := raw_nodup hnalpha spine
    have hta_nd : ta.Nodup := hta_perm.nodup_iff.2 hraw_nd
    have hta_sorted : ta.Pairwise (fun a b => lexLt a b = true) := by
      rw [hta_def]
      exact sortStrs_pairwise_lt hraw_nd
    have hta_good : ∀ u ∈ ta, u ≠ [] ∧ wordOver alpha u := by
      intro u hu
      exact raw_elem_good hspine_over (hta_perm.mem_iff.1 hu)
    have hta_incomp : ∀ u ∈ ta, ∀ v ∈ ta, u ≠ v → ¬ u <+: v := by
      intro u hu v hv
      exact raw_incomp u (hta_perm.mem_iff.1 hu) v (hta_perm.mem_iff.1 hv)
    set N := expandN alpha s kv.1 with hN_def
    have hta_len : ta.length = N := by
      rw [hta_perm.length_eq, List.length_append, length_sibList hnalpha hspine_over,
        length_fanList, hN_eq]
    set shifted := expandShift p.code kv.1 kv.2 N with hshifted_def
    have heks0 : mapKeys shifted = mapKeys (mapErase p.code kv.1) := by
      rw [hshifted_def]
      unfold expandShift
      refine mapKeys_map_fst_preserving _ ?_ _
      intro kv2
      split <;> rfl
    set eks := mapKeys (mapErase p.code kv.1) with heks_def
    have heks_sub : ∀ x ∈ eks, x ∈ ks ∧ x ≠ kv.1 := by
      intro x hx
      obtain ⟨v, hv⟩ := mem_mapKeys.1 hx
      obtain ⟨hvm, hvne⟩ := mem_mapErase.1 hv
      exact ⟨mapKeys_of_mem hvm, hvne⟩
    have heks_nd : eks.Nodup := (mapKeys_filter_sublist _ _).nodup hndk
    have hincomp_pfx : ∀ x ∈ eks, ¬ x <+: kv.1 ∧ ¬ kv.1 <+: x := by
      intro x hx
      obtain ⟨hxk, hxne⟩ := heks_sub x hx
      exact ⟨hincomp x hxk kv.1 hpfxk hxne, hincomp kv.1 hpfxk x hxk (Ne.symm hxne)⟩
    have hx_heads : ∀ x ∈ ks, ∃ a ∈ alpha, x.head? = some a := fun x hx =>
      wordOver_head (hgood x hx).1 (hgood x hx).2
    have hpfx_head : ∃ a ∈ alpha, kv.1.head? = some a := wordOver_head hpfx_ne hpfx_over
    have htransferL : ∀ x ∈ eks, ∀ u, keyLt alpha (kv.1 ++ u) x = keyLt alpha kv.1 x := by
      intro x hx u
      obtain ⟨hxk, _⟩ := heks_sub x hx
      exact keyLt_extension_left hnalpha (hgood x hxk).1 hpfx_ne (hx_heads x hxk) hpfx_head
        (hincomp_pfx x hx).1 (hincomp_pfx x hx).2 u
    have htransferR : ∀ x ∈ eks, ∀ u, keyLt alpha x (kv.1 ++ u) = keyLt alpha x kv.1 := by
      intro x hx u
      obtain ⟨hxk, _⟩ := heks_sub x hx
      exact keyLt_extension_right hnalpha (hgood x hxk).1 hpfx_ne (hx_heads x hxk) hpfx_head
        (hincomp_pfx x hx).1 (hincomp_pfx x hx).2 u
    have hblock_not_key : ∀ u, u ≠ [] → (kv.1 ++ u) ∉ ks := by
      intro u hune hmem
      have hne2 : kv.1 ≠ kv.1 ++ u := by
        intro h
        have hlen : (kv.1 ++ u).length = kv.1.length := by rw [← h]
        rw [List.length_append] at hlen
        cases u with
        | nil => exact hune rfl
        | cons a us => simp at hlen
      exact hincomp kv.1 hpfxk (kv.1 ++ u) hmem hne2 (List.prefix_append _ _)
    have hfresh : ∀ u ∈ ta, (kv.1 ++ u) ∉ mapKeys shifted := by
      intro u hu hmem
      rw [heks0] at hmem
      exact hblock_not_key u (hta_good u hu).1 (heks_sub _ hmem).1
    rw [expandAtMain_spec p s kv hfind hfresh hta_nd]
    refine ⟨rfl, ?_⟩
    show CodeWF alpha (expandResult alpha p.code s kv)
    have hresult : expandResult alpha p.code s kv = shifted ++ expandBlock kv.1 kv.2 ta := rfl
    have hbk : mapKeys (expandBlock kv.1 kv.2 ta) = ta.map (fun u => kv.1 ++ u) :=
      expandBlock_keys _ _ _
    have hkeys_final : mapKeys (expandResult alpha p.code s kv)
        = eks ++ ta.map (fun u => kv.1 ++ u) := by
      rw [hresult, mapKeys_append, heks0, hbk]
    have hsingle : ks.filter (fun k2 => k2 = kv.1) = [kv.1] :=
      nodup_filter_eq hndk hpfxk
    have heks_filter : eks = ks.filter (fun k2 => ¬ k2 = kv.1) := by
      rw [heks_def, hks_def]
      unfold mapErase
      exact mapKeys_filter (fun k2 => decide (¬ k2 = kv.1)) p.code
    have hcount_split : ∀ q : Str → Bool,
        ks.countP q = eks.countP q + (if q kv.1 = true then 1 else 0) := by
      intro q
      have hperm2 : (ks.filter (fun k2 => k2 = kv.1)
          ++ ks.filter (fun k2 => ¬ k2 = kv.1)).Perm ks := by
        have hb : ks.filter (fun k2 => ¬ k2 = kv.1)
            = ks.filter (fun k2 => !(decide (k2 = kv.1))) :=
          List.filter_congr (fun x _ => by rw [decide_not])
        rw [hb]
        exact List.filter_append_perm _ ks
      rw [← hperm2.countP_eq q, List.countP_append, hsingle, heks_filter]
      have hone : List.countP q [kv.1] = if q kv.1 = true then 1 else 0 := by
        rw [List.countP_cons, List.countP_nil]
        omega
      rw [hone]
      omega
    have hcount_block : ∀ x ∈ eks,
        (ta.map (fun u => kv.1 ++ u)).countP (fun j => keyLt alpha j x)
          = if keyLt alpha kv.1 x = true then ta.length else 0 := by
      intro x hx
      rw [List.countP_map]
      exact countP_eq_of_const _ (keyLt alpha kv.1 x) ta (fun u hu => htransferL x hx u)
    refine ⟨?_, ?_, ?_, ?_⟩
    · -- nodup keys
      rw [hkeys_final]
      refine List.Nodup.append heks_nd ?_ ?_
      · refine hta_nd.map_on ?_
        intro x _ y _ hxy
        exact List.append_cancel_left hxy
      · intro x hx1 hx2
        rw [List.mem_map] at hx2
        obtain ⟨u, hu, rfl⟩ := hx2
        exact hblock_not_key u (hta_good u hu).1 (heks_sub _ hx1).1
    · -- nonempty alphabet words
      rw [hkeys_final]
      intro k hk
      rcases List.mem_append.1 hk with hk | hk
      · exact hgood k (heks_sub k hk).1
      · rw [List.mem_map] at hk
        obtain ⟨u, hu, rfl⟩ := hk
        constructor
        · intro h
          rw [List.append_eq_nil] at h
          exact hpfx_ne h.1
        · intro r hr
          rcases List.mem_append.1 hr with hr | hr
          · exact hpfx_over r hr
          · exact (hta_good u hu).2 r hr
    · -- prefix incomparability
      rw [hkeys_final]
      intro a hamem b hbmem hab
      rcases List.mem_append.1 hamem with hag | hag <;>
        rcases List.mem_append.1 hbmem with hbg | hbg
      · exact hincomp a (heks_sub a hag).1 b (heks_sub b hbg).1 hab
      · rw [List.mem_map] at hbg
        obtain ⟨u, hu, rfl⟩ := hbg
        intro hpre
        have h1 : a <+: kv.1 ∨ kv.1 <+: a :=
          List.prefix_or_prefix_of_prefix hpre (List.prefix_append _ _)
        rcases h1 with h1 | h1
        · exact (hincomp_pfx a hag).1 h1
        · exact (hincomp_pfx a hag).2 h1
      · rw [List.mem_map] at hag
        obtain ⟨u, hu, rfl⟩ := hag
        intro hpre
        exact (hincomp_pfx b hbg).2 ((List.prefix_append kv.1 u).trans hpre)
      · rw [List.mem_map] at hag hbg
        obtain ⟨u, hu, rfl⟩ := hag
        obtain ⟨u2, hu2, rfl⟩ := hbg
        intro hpre
        have hune : u ≠ u2 := by
          intro h
          rw [h] at hab
          exact hab rfl
        exact hta_incomp u hu u2 hu2 hune ((List.prefix_append_right_inj kv.1).1 hpre)
    · -- labels are ranks
      intro kv2 hkv2
      rw [hkeys_final]
      rw [hresult] at hkv2
      rcases List.mem_append.1 hkv2 with hkv2 | hkv2
      · -- a shifted entry
        rw [hshifted_def] at hkv2
        unfold expandShift at hkv2
        rw [List.mem_map] at hkv2
        obtain ⟨kv1, hkv1, rfl⟩ := hkv2
        obtain ⟨hkv1m, hkv1ne⟩ := mem_mapErase.1 hkv1
        have hx : kv1.1 ∈ eks := by
          rw [heks_def]
          exact mapKeys_of_mem hkv1
        have hv1 : kv1.2 = (rankOf alpha ks kv1.1 : Int) := hlabels kv1 hkv1m
        have hxk : kv1.1 ∈ ks := (heks_sub _ hx).1
        have hnewrank : rankOf alpha (eks ++ ta.map (fun u => kv.1 ++ u)) kv1.1
            = eks.countP (fun j => keyLt alpha j kv1.1)
              + (if keyLt alpha kv.1 kv1.1 = true then ta.length else 0) := by
          unfold rankOf
          rw [List.countP_append, hcount_block kv1.1 hx]
        have hold := hcount_split (fun j => keyLt alpha j kv1.1)
        cases hc : keyLt alpha kv.1 kv1.1 with
        | true =>
          have hrk : rankOf alpha ks kv.1 < rankOf alpha ks kv1.1 :=
            rankOf_strict_mono hpfxk hc
          have hshiftc : kv1.2 > kv.2 := by
            rw [hv1, hlabkv]
            exact_mod_cast hrk
          have hfe : (if kv1.2 > kv.2 then (kv1.1, kv1.2 + (N : Int) - 1) else kv1)
              = (kv1.1, kv1.2 + (N : Int) - 1) := if_pos hshiftc
          rw [hfe]
          show kv1.2 + (N : Int) - 1
              = (rankOf alpha (eks ++ ta.map (fun u => kv.1 ++ u)) kv1.1 : Int)
          rw [hnewrank, hc, if_pos rfl]
          have holdv : kv1.2 = ((eks.countP (fun j => keyLt alpha j kv1.1) + 1 : Nat) : Int) := by
            rw [hv1]
            unfold rankOf
            rw [hold, hc, if_pos rfl]
          rw [holdv, hta_len]
          push_cast
          ring
        | false =>
          have hxs_ne : kv1.1 ≠ kv.1 := hkv1ne
          have hsx : keyLt alpha kv1.1 kv.1 = true := by
            refine keyLt_total hnalpha ?_ (fun h => hxs_ne h.symm) hc
            intro _
            exact Or.inr ⟨hpfx_head, hx_heads kv1.1 hxk⟩
          have hrk : rankOf alpha ks kv1.1 < rankOf alpha ks kv.1 :=
            rankOf_strict_mono hxk hsx
          have hnoshift : ¬ kv1.2 > kv.2 := by
            rw [hv1, hlabkv]
            intro hgt
            have h5 : rankOf alpha ks kv.1 < rankOf alpha ks kv1.1 := by
              exact_mod_cast hgt
            omega
          have hfe : (if kv1.2 > kv.2 then (kv1.1, kv1.2 + (N : Int) - 1) else kv1)
              = kv1 := if_neg hnoshift
          rw [hfe, hnewrank, hc, if_neg Bool.false_ne_true]
          have holdv : kv1.2 = ((eks.countP (fun j => keyLt alpha j kv1.1) + 0 : Nat) : Int) := by
            rw [hv1]
            unfold rankOf
            rw [hold, hc, if_neg Bool.false_ne_true]
          exact holdv
      · -- a block entry
        unfold expandBlock at hkv2
        rw [List.mem_map] at hkv2
        obtain ⟨⟨j, u⟩, hju, rfl⟩ := hkv2
        obtain ⟨hj, hu⟩ := List.mem_enum hju
        have humem : u ∈ ta := by
          rw [hu]
          exact List.getElem_mem hj
        show kv.2 + (j : Int)
            = (rankOf alpha (eks ++ ta.map (fun u2 => kv.1 ++ u2)) (kv.1 ++ u) : Int)
        have hekspart : eks.countP (fun j2 => keyLt alpha j2 (kv.1 ++ u))
            = eks.countP (fun j2 => keyLt alpha j2 kv.1) := by
          refine List.countP_congr ?_
          intro x hx
          rw [htransferR x hx u]
        have heksrank : eks.countP (fun j2 => keyLt alpha j2 kv.1) = rankOf alpha ks kv.1 := by
          have h1 := hcount_split (fun j2 => keyLt alpha j2 kv.1)
          rw [keyLt_irrefl alpha kv.1] at h1
          simp at h1
          unfold rankOf
          omega
        have hbkpart : (ta.map (fun u2 => kv.1 ++ u2)).countP
            (fun j2 => keyLt alpha j2 (kv.1 ++ u)) = j := by
          rw [List.countP_map]
          have h1 : ∀ u2 ∈ ta, ((fun j2 => keyLt alpha j2 (kv.1 ++ u)) ∘
              (fun u2 => kv.1 ++ u2)) u2 = lexLt u2 u := by
            intro u2 _
            exact keyLt_append_cancel alpha hpfx_ne u2 u
          rw [List.countP_congr (fun u2 hu2 => by rw [h1 u2 hu2])]
          rw [hu]
          exact countP_lt_getElem_of_sorted ta hta_sorted j hj
        unfold rankOf
        rw [List.countP_append, hekspart, heksrank, hbkpart, hlabkv]
        push_cast
        ring

/-! ## The one-level development of the sentinel state -/

theorem lexLt_singleton (x y : Rune) : lexLt [x] [y] = decide (x < y) := by
  simp [lexLt]

theorem developOneLevel_spec {p : PrefixCode} (ha : AlphaWF p.alphabet)
    (hcode : p.code = [(emptyString, 0)]) :
    developOneLevel p = p.alphabet.enum.map (fun iv => ([iv.2], (iv.1 : Int))) := by
  obtain ⟨hnalpha, _, hnsent⟩ := ha
  have hkeysb : ((p.alphabet.enum.map (fun iv : Nat × Rune => ([iv.2], (iv.1 : Int)))).map
      Prod.fst) = p.alphabet.map (fun a => [a]) := by
    rw [List.map_map]
    have h : (Prod.fst ∘ fun iv : Nat × Rune => (([iv.2] : Str), (iv.1 : Int)))
        = (fun a => ([a] : Str)) ∘ Prod.snd := rfl
    rw [h, ← List.map_map, List.enum_map_snd]
  have hnd2 : ((p.alphabet.enum.map (fun iv : Nat × Rune => ([iv.2], (iv.1 : Int)))).map
      Prod.fst).Nodup := by
    rw [hkeysb]
    refine hnalpha.map_on ?_
    intro x _ y _ hxy
    injection hxy
  have hfresh : ∀ iv ∈ p.alphabet.enum,
      (([iv.2] : Str)) ∉ mapKeys [(emptyString, 0)] := by
    rintro ⟨i, a⟩ hiv hmem
    obtain ⟨hi, hav⟩ := List.mem_enum hiv
    simp only [mapKeys, List.map_cons, List.map_nil, List.mem_singleton] at hmem
    have : a = sentinelRune := by
      have h2 : ([a] : Str) = [sentinelRune] := hmem
      injection h2
    apply hnsent
    rw [← this]
    rw [hav]
    exact List.getElem_mem hi
  have hfold : p.alphabet.enum.foldl
      (fun c iv => mapInsert c [iv.2] (iv.1 : Int)) [(emptyString, 0)]
      = [(emptyString, 0)] ++ p.alphabet.enum.map (fun iv => ([iv.2], (iv.1 : Int))) :=
    foldl_mapInsert_fresh (fun iv : Nat × Rune => ([iv.2], (iv.1 : Int)))
      p.alphabet.enum [(emptyString, 0)] hfresh hnd2
  unfold developOneLevel
  rw [hcode, hfold]
  unfold mapErase
  rw [List.filter_append]
  have h1 : List.filter (fun kv : Str × Int => ¬ kv.1 = emptyString) [(emptyString, 0)]
      = [] := by
    simp
  have h2 : List.filter (fun kv : Str × Int => ¬ kv.1 = emptyString)
      (p.alphabet.enum.map (fun iv => ([iv.2], (iv.1 : Int))))
      = p.alphabet.enum.map (fun iv => ([iv.2], (iv.1 : Int))) := by
    rw [List.filter_eq_self]
    rintro ⟨k, v⟩ hkv
    rw [List.mem_map] at hkv
    obtain ⟨⟨i, a⟩, hia, hkv2⟩ := hkv
    obtain ⟨hi, hav⟩ := List.mem_enum hia
    have hk : k = [a] := by
      have := congrArg Prod.fst hkv2
      exact this.symm
    simp only [decide_eq_true_eq]
    rw [hk]
    intro hcontra
    have ha2 : a = sentinelRune := by injection hcontra
    apply hnsent
    rw [← ha2, hav]
    exact List.getElem_mem hi
  rw [h1, h2]
  rfl

theorem develop_wf {alpha : List Rune} (ha : AlphaWF alpha) :
    CodeWF alpha (alpha.enum.map (fun iv => ([iv.2], (iv.1 : Int)))) := by
  obtain ⟨hnalpha, hnem, hnsent⟩ := ha
  have hkeysb : mapKeys (alpha.enum.map (fun iv : Nat × Rune => ([iv.2], (iv.1 : Int))))
      = alpha.map (fun a => [a]) := by
    unfold mapKeys
    rw [List.map_map]
    have h : (Prod.fst ∘ fun iv : Nat × Rune => (([iv.2] : Str), (iv.1 : Int)))
        = (fun a => ([a] : Str)) ∘ Prod.snd := rfl
    rw [h, ← List.map_map, List.enum_map_snd]
  refine ⟨?_, ?_, ?_, ?_⟩
  · rw [hkeysb]
    refine hnalpha.map_on ?_
    intro x _ y _ hxy
    injection hxy
  · rw [hkeysb]
    intro k hk
    rw [List.mem_map] at hk
    obtain ⟨a, hamem, rfl⟩ := hk
    refine ⟨by simp, ?_⟩
    intro r hr
    rw [List.mem_singleton] at hr
    subst hr
    exact hamem
  · rw [hkeysb]
    intro x hx y hy hxy hpre
    rw [List.mem_map] at hx hy
    obtain ⟨a, _, rfl⟩ := hx
    obtain ⟨b, _, rfl⟩ := hy
    rw [List.cons_prefix_cons] at hpre
    obtain ⟨rfl, _⟩ := hpre
    exact hxy rfl
  · intro kv hkv
    rw [List.mem_map] at hkv
    obtain ⟨⟨i, a⟩, hia, rfl⟩ := hkv
    obtain ⟨hi, hav⟩ := List.mem_enum hia
    rw [hkeysb]
    simp only
    have hrank : rankOf alpha (alpha.map (fun a2 => [a2])) [a] = i := by
      unfold rankOf
      rw [List.countP_map]
      have hpt : ∀ b ∈ alpha, ((fun j => keyLt alpha j [a]) ∘ (fun a2 => ([a2] : Str))) b
          = decide (alpha.indexOf b < i) := by
        intro b _
        show keyLt alpha [b] [a] = decide (alpha.indexOf b < i)
        unfold keyLt phiKey
        rw [lexLt_singleton]
        have hidx : alpha.indexOf a = i := by
          rw [hav]
          exact indexOf_getElem_of_nodup hnalpha hi
        rw [hidx]
      rw [List.countP_congr (fun b hb => by rw [hpt b hb])]
      have hcp : alpha.countP (fun b => decide (alpha.indexOf b < i))
          = (alpha.map (fun b => alpha.indexOf b)).countP (fun t => decide (t < i)) := by
        rw [List.countP_map]
        rfl
      rw [hcp, map_indexOf_eq_range hnalpha]
      exact countP_range_lt alpha.length i (le_of_lt hi)
    rw [hrank]

/-! ## Branch analysis of `ExpandAt` and `ReduceAt` -/

theorem leafAtLabel_sentinel {p : PrefixCode} (hcode : p.code = [(emptyString, 0)]) :
    p.code.length = 1 ∧ leafAtLabel p 0 = emptyString := by
  constructor
  · rw [hcode]
    rfl
  · unfold leafAtLabel
    rw [hcode]
    rw [if_neg (by norm_num)]
    rw [List.find?_cons_of_pos _ (by norm_num)]
    rfl

theorem not_sentinel_cond {p : PrefixCode} (ha : AlphaWF p.alphabet)
    (hwf : CodeWF p.alphabet p.code) :
    ¬ (p.code.length = 1 ∧ leafAtLabel p 0 = emptyString) := by
  obtain ⟨_, _, hnsent⟩ := ha
  obtain ⟨_, hgood, _, hlabels⟩ := hwf
  rintro ⟨hlen, hleaf⟩
  obtain ⟨kv, hcode⟩ := List.length_eq_one.1 hlen
  have hkv2 : kv.2 = 0 := by
    have h1 := hlabels kv (by rw [hcode]; exact List.mem_singleton.2 rfl)
    have h2 : rankOf p.alphabet (mapKeys p.code) kv.1 = 0 := by
      unfold rankOf
      rw [hcode]
      simp [mapKeys, keyLt_irrefl]
    rw [h2] at h1
    exact_mod_cast h1
  have hleaf2 : leafAtLabel p 0 = kv.1 := by
    unfold leafAtLabel
    rw [hcode]
    rw [if_neg (by norm_num)]
    rw [List.find?_cons_of_pos _ (by simp [hkv2])]
    rfl
  rw [hleaf2] at hleaf
  have hks : kv.1 ∈ mapKeys p.code := by
    rw [hcode]
    exact mapKeys_of_mem (List.mem_singleton.2 rfl)
  have hover := (hgood kv.1 hks).2
  apply hnsent
  have : sentinelRune ∈ kv.1 := by
    rw [hleaf]
    exact List.mem_singleton.2 rfl
  exact hover sentinelRune this

theorem StateInv_of_wf {q : PrefixCode} {alpha : List Rune} (ha : AlphaWF alpha)
    (heq : q.alphabet = alpha) (hwf : CodeWF alpha q.code) : StateInv q := by
  refine ⟨?_, Or.inr ?_⟩
  · rw [heq]; exact ha
  · rw [heq]; exact hwf

theorem expandAt_preserves {p : PrefixCode} (hinv : StateInv p) {s : Str}
    (hso : wordOver p.alphabet s) :
    StateInv ((expandAt p s).1) ∧ ((expandAt p s).1).alphabet = p.alphabet := by
  obtain ⟨ha, hcase⟩ := hinv
  rcases hcase with hcode | hwf
  · -- sentinel-only state
    have hcond := leafAtLabel_sentinel hcode
    have hdev := developOneLevel_spec ha hcode
    have hdevwf : CodeWF p.alphabet (developOneLevel p) := by
      rw [hdev]
      exact develop_wf ha
    unfold expandAt
    by_cases hs : s = emptyString ∨ s = []
    · rw [if_pos ⟨hs, hcond⟩]
      exact ⟨⟨ha, Or.inr hdevwf⟩, rfl⟩
    · rw [if_neg (fun hcontra => hs hcontra.1)]
      rw [if_pos hcond]
      have hmain := @expandAtMain_wf { p with code := developOneLevel p } ha hdevwf s hso
      refine ⟨StateInv_of_wf ha ?_ ?_, ?_⟩
      · exact hmain.1
      · exact hmain.2
      · exact hmain.1
  · -- developed state
    have hnc := not_sentinel_cond ha hwf
    unfold expandAt
    rw [if_neg (fun h => hnc h.2)]
    rw [if_neg hnc]
    have hmain := expandAtMain_wf ha hwf hso
    refine ⟨StateInv_of_wf ha ?_ ?_, ?_⟩
    · exact hmain.1
    · exact hmain.2
    · exact hmain.1

theorem not_prefix_of_sentinel {alpha : List Rune} (hnsent : sentinelRune ∉ alpha)
    {s : Str} (hs : s ≠ []) (hso : wordOver alpha s) :
    s.isPrefixOf emptyString = false := by
  cases hpre : s.isPrefixOf emptyString with
  | false => rfl
  | true =>
    exfalso
    have h1 : s <+: emptyString := List.isPrefixOf_iff_prefix.1 hpre
    cases s with
    | nil => exact hs rfl
    | cons r rest =>
      rw [show emptyString = [sentinelRune] from rfl, List.cons_prefix_cons] at h1
      apply hnsent
      rw [← h1.1]
      exact hso r (List.mem_cons_self r rest)

theorem reduceAt_preserves {p : PrefixCode} (hinv : StateInv p) {s : Str}
    (hso : wordOver p.alphabet s) :
    StateInv ((reduceAt p s).1) ∧ ((reduceAt p s).1).alphabet = p.alphabet := by
  obtain ⟨ha, hcase⟩ := hinv
  by_cases hs : s = [] ∨ s = emptyString
  · rw [reduceAt_reset p s hs]
    exact ⟨⟨ha, hcase⟩, rfl⟩
  · have hsne : s ≠ [] := fun h => hs (Or.inl h)
    rcases hcase with hcode | hwf
    · -- sentinel-only state: nothing matches an alphabet word
      have hnomatch : (p.code.filter (fun kv => s.isPrefixOf kv.1)).length = 0 := by
        rw [hcode]
        have h1 := not_prefix_of_sentinel ha.2.2 hsne hso
        simp [h1]
      rw [reduceAt_noop p s hs hnomatch]
      exact ⟨⟨ha, Or.inl hcode⟩, rfl⟩
    · by_cases hne : (p.code.filter (fun kv => s.isPrefixOf kv.1)).length = 0
      · rw [reduceAt_noop p s hs hne]
        exact ⟨⟨ha, Or.inr hwf⟩, rfl⟩
      · rw [reduceAt_spec p s hs hne]
        exact ⟨⟨ha, Or.inr (reduceResult_wf ha hwf hsne hso hne)⟩, rfl⟩

theorem runOps_preserves {p : PrefixCode} (hinv : StateInv p) (ops : List Op)
    (hops : ∀ o ∈ ops, wordOver p.alphabet o.word) :
    StateInv (runOps p ops) ∧ (runOps p ops).alphabet = p.alphabet := by
  induction ops generalizing p with
  | nil => exact ⟨hinv, rfl⟩
  | cons o ops ih =>
    have ho := hops o (List.mem_cons_self o ops)
    have hstep : StateInv (applyOp p o) ∧ (applyOp p o).alphabet = p.alphabet := by
      cases o with
      | expand w => exact expandAt_preserves hinv ho
      | reduce w => exact reduceAt_preserves hinv ho
    have hrest : ∀ o2 ∈ ops, wordOver (applyOp p o).alphabet o2.word := by
      intro o2 ho2
      rw [hstep.2]
      exact hops o2 (List.mem_cons_of_mem _ ho2)
    obtain ⟨h1, h2⟩ := ih hstep.1 hrest
    exact ⟨h1, h2.trans hstep.2⟩

/-! ## The invariant gives the claimed properties -/

theorem StateInv_conclusions {p : PrefixCode} (hinv : StateInv p) :
    (mapKeys p.code).Nodup ∧
    (∀ a ∈ mapKeys p.code, ∀ b ∈ mapKeys p.code, a ≠ b → ¬ a <+: b) ∧
    (p.code.map Prod.snd).Perm ((List.range p.code.length).map Int.ofNat) := by
  obtain ⟨⟨hnalpha, _, _⟩, hcase⟩ := hinv
  rcases hcase with hcode | hwf
  · rw [hcode]
    refine ⟨by decide, ?_, by decide⟩
    intro a ha2 b hb2 hab
    simp only [mapKeys, List.map_cons, List.map_nil, List.mem_singleton] at ha2 hb2
    exact absurd (ha2.trans hb2.symm) hab
  · obtain ⟨hndk, hgood, hincomp, hlabels⟩ := hwf
    refine ⟨hndk, hincomp, ?_⟩
    have h1 : p.code.map Prod.snd
        = (mapKeys p.code).map (fun k => (rankOf p.alphabet (mapKeys p.code) k : Int)) := by
      rw [show (mapKeys p.code).map (fun k => (rankOf p.alphabet (mapKeys p.code) k : Int))
          = p.code.map (fun kv => (rankOf p.alphabet (mapKeys p.code) kv.1 : Int)) from by
        unfold mapKeys
        rw [List.map_map]
        rfl]
      exact List.map_congr_left hlabels
    have h2 : (mapKeys p.code).map (fun k => (rankOf p.alphabet (mapKeys p.code) k : Int))
        = ((mapKeys p.code).map (fun k => rankOf p.alphabet (mapKeys p.code) k)).map
          Int.ofNat := by
      rw [List.map_map]
      rfl
    rw [h1, h2]
    have hperm := ranks_perm_range hnalpha hndk hgood
    have hlen : (mapKeys p.code).length = p.code.length := List.length_map _ _
    rw [hlen] at hperm
    exact hperm.map Int.ofNat

theorem isPrefixOf_singleton_head {s : List Rune} :
    [49].isPrefixOf s = true ↔ s.head? = some 49 := by
  cases s with
  | nil => simp [List.isPrefixOf]
  | cons c cs =>
    rw [List.isPrefixOf_iff_prefix, List.cons_prefix_cons]
    simp [eq_comm]

theorem dfsScan_eq (k : Int) (total : Nat) :
    ∀ (s : List Rune) (t cl : Int) (tc : Nat),
    dfsScan k total s t cl tc
      = if scanOk k total tc t s
        then some (cl + ((s.countP (fun c => c = 48) : Nat) : Int)) else none := by
  intro s
  induction s with
  | nil =>
    intro t cl tc
    have hok : scanOk k total tc t [] := fun j hj => absurd hj (Nat.not_lt_zero j)
    rw [if_pos hok]
    show some cl = _
    simp
  | cons c cs ih =>
    intro t cl tc
    have htal : (if c = 48 then (if c = 49 then t + k - 1 else t) - 1
        else (if c = 49 then t + k - 1 else t)) = dfsStep k t c := by
      unfold dfsStep
      by_cases h49 : c = 49
      · subst h49
        norm_num
      · by_cases h48 : c = 48
        · subst h48
          norm_num
        · simp [h48, h49]
    have hstep : dfsScan k total (c :: cs) t cl tc
        = if dfsStep k t c = 0 ∧ tc + 1 < total then none
          else dfsScan k total cs (dfsStep k t c) (if c = 48 then cl + 1 else cl) (tc + 1) := by
      show (if (if c = 48 then (if c = 49 then t + k - 1 else t) - 1
          else (if c = 49 then t + k - 1 else t)) = 0 ∧ tc + 1 < total then none
        else dfsScan k total cs
          (if c = 48 then (if c = 49 then t + k - 1 else t) - 1
            else (if c = 49 then t + k - 1 else t))
          (if c = 48 then cl + 1 else cl) (tc + 1)) = _
      rw [htal]
    rw [hstep]
    have htake1 : ((c :: cs).take 1).foldl (dfsStep k) t = dfsStep k t c := by
      rw [List.take_succ_cons, List.take_zero]
      rfl
    by_cases hfail : dfsStep k t c = 0 ∧ tc + 1 < total
    · rw [if_pos hfail]
      rw [if_neg]
      intro hok
      have h0 := hok 0 (Nat.succ_pos cs.length) (by rw [htake1]; exact hfail.1)
      exact h0 hfail.2
    · rw [if_neg hfail, ih]
      have hiff : scanOk k total (tc + 1) (dfsStep k t c) cs ↔ scanOk k total tc t (c :: cs) := by
        constructor
        · intro hok j hj hz
          cases j with
          | zero =>
            rw [htake1] at hz
            intro hlt
            exact hfail ⟨hz, hlt⟩
          | succ j2 =>
            have hj2 : j2 < cs.length := by
              simp only [List.length_cons] at hj
              omega
            have hz2 : (cs.take (j2 + 1)).foldl (dfsStep k) (dfsStep k t c) = 0 := by
              rw [List.take_succ_cons, List.foldl_cons] at hz
              exact hz
            have := hok j2 hj2 hz2
            intro hlt
            apply this
            omega
        · intro hok j hj hz
          have hz2 : ((c :: cs).take (j + 1 + 1)).foldl (dfsStep k) t = 0 := by
            rw [List.take_succ_cons, List.foldl_cons]
            exact hz
          have := hok (j + 1) (by simp only [List.length_cons]; omega) hz2
          intro hlt
          apply this
          omega
      have hcnt : cl + (((c :: cs).countP (fun c2 => c2 = 48) : Nat) : Int)
          = (if c = 48 then cl + 1 else cl) + ((cs.countP (fun c2 => c2 = 48) : Nat) : Int) := by
        rw [List.countP_cons]
        by_cases h : c = 48
        · rw [if_pos h]
          simp [h]
          ring
        · rw [if_neg h]
          simp [h]
      by_cases hok : scanOk k total (tc + 1) (dfsStep k t c) cs
      · rw [if_pos hok, if_pos (hiff.1 hok), hcnt]
      · rw [if_neg hok, if_neg (fun h2 => hok (hiff.2 h2))]

theorem validDFS_unfolded (k : Nat) (s : List Rune) :
    validDFSForPrefC k s
      = (if ¬ (((s.countP (fun c => c = 48) : Nat) : Int)
            = ((k : Int) - 1) * ((s.countP (fun c => c = 49) : Nat) : Int) + 1) then false
        else if ¬ ([49].isPrefixOf s) then false
        else match dfsScan ((k : Int)) s.length s 1 0 0 with
          | none => false
          | some countLeaves =>
            if ¬ (countLeaves
                = ((k : Int) - 1) * ((s.countP (fun c => c = 49) : Nat) : Int) + 1) then false
            else true) := rfl

/-- **C8.**  For every alphabet size `k ≥ 1` and every string over `{0,1}`,
`ValidDFSForPrefC(k, s)` returns true exactly when `s` starts with `'1'`,
its number of `'0'`s equals `(k-1)` times its number of `'1'`s plus one, and
the running open-slots counter (seeded with 1, `+(k-1)` on `'1'`, `-1` on
`'0'`) never reaches zero strictly before the final character. -/
theorem claim_C8_validDFS_characterisation (k : Nat) (s : List Rune) (hk : 1 ≤ k)
    (hbin : ∀ c ∈ s, c = 48 ∨ c = 49) :
    validDFSForPrefC k s = true ↔ validDFSSpec k s := by
  rw [validDFS_unfolded]
  by_cases h1 : ((s.countP (fun c => c = 48) : Nat) : Int)
      = ((k : Int) - 1) * ((s.countP (fun c => c = 49) : Nat) : Int) + 1
  · rw [if_neg (not_not_intro h1)]
    by_cases h2 : [49].isPrefixOf s = true
    · rw [if_neg (not_not_intro h2)]
      rw [dfsScan_eq ((k : Int)) s.length s 1 0 0]
      by_cases h3 : scanOk ((k : Int)) s.length 0 1 s
      · rw [if_pos h3]
        refine iff_of_true ?_ ?_
        · show (if ¬ ((0 : Int) + ((s.countP (fun c => c = 48) : Nat) : Int)
              = ((k : Int) - 1) * ((s.countP (fun c => c = 49) : Nat) : Int) + 1)
            then false else true) = true
          rw [if_neg (not_not_intro (by rw [zero_add]; exact h1))]
        · refine ⟨isPrefixOf_singleton_head.1 h2, h1, ?_⟩
          intro j hj hjlt hz
          have h4 := h3 j hj hz
          apply h4
          omega
      · rw [if_neg h3]
        refine iff_of_false Bool.false_ne_true ?_
        intro hspec
        apply h3
        intro j hj hz hlt
        refine hspec.2.2 j hj (by omega) hz
    · rw [if_pos h2]
      refine iff_of_false Bool.false_ne_true ?_
      intro hspec
      exact h2 (isPrefixOf_singleton_head.2 hspec.1)
  · rw [if_pos h1]
    refine iff_of_false Bool.false_ne_true ?_
    intro hspec
    exact h1 hspec.2.1

/-- Witness for the `ValidDFSForPrefC` characterisation at `k = 2`,
`s = "100"`. -/
theorem claim_C8_witness :
    1 ≤ 2 ∧ (∀ c ∈ ([49, 48, 48] : List Rune), c = 48 ∨ c = 49) ∧
    (validDFSForPrefC 2 [49, 48, 48] = true ↔ validDFSSpec 2 [49, 48, 48]) :=
  ⟨by decide, by decide, claim_C8_validDFS_characterisation 2 [49, 48, 48] (by decide) (by decide)⟩

/-! ## `ExpandAt` at an existing codeword -/

theorem expandN_self (alpha : List Rune) (w : Str) : expandN alpha w w = alpha.length := by
  unfold expandN
  rw [Nat.sub_self]
  simp

theorem expandToAppend_self (alpha : List Rune) (w : Str) :
    expandToAppend alpha w w = sortStrs (alpha.map (fun r => [r])) := by
  have h1 : sibList alpha [] = [] := rfl
  have h2 : fanList alpha [] = alpha.map (fun r => [r]) := rfl
  unfold expandToAppend buildToAppend
  rw [List.drop_length]
  show sortStrs ((sibList alpha [] ++ fanList alpha [])
      ++ List.replicate (expandN alpha w w - (sibList alpha [] ++ fanList alpha []).length) [])
    = sortStrs (alpha.map (fun r => [r]))
  rw [h1, h2, List.nil_append, expandN_self, List.length_map, Nat.sub_self,
    List.replicate_zero, List.append_nil]

theorem mem_singles {alpha : List Rune} {u : Str}
    (hu : u ∈ sortStrs (alpha.map (fun r => [r]))) : ∃ r ∈ alpha, u = [r] := by
  have h1 := (sortStrs_perm (alpha.map (fun r => [r]))).mem_iff.1 hu
  obtain ⟨r, hr, rfl⟩ := List.mem_map.1 h1
  exact ⟨r, hr, rfl⟩

theorem find?_codeword {p : PrefixCode} {w : Str} (hwf : CodeWF p.alphabet p.code)
    (hw : w ∈ mapKeys p.code) :
    ∃ lab : Int, (w, lab) ∈ p.code ∧
      p.code.find? (fun kv => kv.1.isPrefixOf w) = some (w, lab) := by
  obtain ⟨hndk, hgood, hincomp, _⟩ := hwf
  obtain ⟨lab, hmem⟩ := mem_mapKeys.1 hw
  cases hfind : p.code.find? (fun kv => kv.1.isPrefixOf w) with
  | none =>
    rw [List.find?_eq_none] at hfind
    have h1 : ((w, lab) : Str × Int).1.isPrefixOf w = true :=
      List.isPrefixOf_iff_prefix.2 List.prefix_rfl
    exact absurd h1 (hfind _ hmem)
  | some kv =>
    have hkvm := List.mem_of_find?_eq_some hfind
    have hb := List.find?_some hfind
    have hpre : kv.1 <+: w := List.isPrefixOf_iff_prefix.1 hb
    have hkey : kv.1 = w := by
      by_contra hne
      exact hincomp kv.1 (mapKeys_of_mem hkvm) w hw hne hpre
    refine ⟨kv.2, ?_, ?_⟩
    · rw [← hkey]
      exact hkvm
    · have hkv : kv = (w, kv.2) := by
        rw [← hkey]
      exact congrArg some hkv

theorem shift_keys (m : CodeMap) (pfx : Str) (lab : Int) (n : Nat) :
    mapKeys (expandShift m pfx lab n) = mapKeys (mapErase m pfx) := by
  unfold expandShift
  refine mapKeys_map_fst_preserving _ ?_ _
  intro kv2
  split <;> rfl

theorem expandAt_codeword_form {p : PrefixCode} {w : Str} (ha : AlphaWF p.alphabet)
    (hwf : CodeWF p.alphabet p.code) (hw : w ∈ mapKeys p.code) :
    ∃ lab : Int, (w, lab) ∈ p.code ∧
      expandAt p w = ({ p with code := expandShift p.code w lab p.alphabet.length ++ expandBlock w lab (sortStrs (p.alphabet.map (fun r => [r]))) }, true) := by
  obtain ⟨lab, hmem, hfind⟩ := find?_codeword hwf hw
  refine ⟨lab, hmem, ?_⟩
  have hnc := not_sentinel_cond ha hwf
  unfold expandAt
  rw [if_neg (fun h => hnc h.2), if_neg hnc]
  have hta_nd : (expandToAppend p.alphabet w w).Nodup := by
    rw [expandToAppend_self]
    refine (sortStrs_perm _).nodup_iff.2 ?_
    refine ha.1.map_on ?_
    intro x _ y _ hxy
    simpa using hxy
  have hfresh : ∀ u ∈ expandToAppend p.alphabet w w,
      (w ++ u) ∉ mapKeys (expandShift p.code w lab (expandN p.alphabet w w)) := by
    intro u hu hmemk
    rw [expandToAppend_self] at hu
    obtain ⟨r, hr, rfl⟩ := mem_singles hu
    rw [shift_keys] at hmemk
    obtain ⟨v, hv⟩ := mem_mapKeys.1 hmemk
    have hvm := (mem_mapErase.1 hv).1
    have hks : (w ++ [r]) ∈ mapKeys p.code := mapKeys_of_mem hvm
    have hne : w ≠ w ++ [r] := by
      intro h
      have hlen : (w ++ [r]).length = w.length := by
        rw [← h]
      rw [List.length_append] at hlen
      simp at hlen
    exact hwf.2.2.1 w hw (w ++ [r]) hks hne (List.prefix_append _ _)
  show expandAtMain p w = _
  rw [expandAtMain_spec p w (w, lab) hfind hfresh hta_nd]
  have hre : expandResult p.alphabet p.code w (w, lab)
      = expandShift p.code w lab p.alphabet.length
        ++ expandBlock w lab (sortStrs (p.alphabet.map (fun r => [r]))) := by
    unfold expandResult
    rw [expandN_self, expandToAppend_self]
  rw [hre]

/-! ## `ReduceAt` right after an expansion at a codeword -/

theorem nodup_entry_filter {m : CodeMap} (hnd : (mapKeys m).Nodup) {w : Str} {lab : Int}
    (hmem : (w, lab) ∈ m) : m.filter (fun kv => kv.1 = w) = [(w, lab)] := by
  induction m with
  | nil => exact absurd hmem (List.not_mem_nil _)
  | cons a l ih =>
    have hnd2 : (mapKeys (a :: l)).Nodup := hnd
    rw [show mapKeys (a :: l) = a.1 :: mapKeys l from rfl, List.nodup_cons] at hnd2
    rcases List.mem_cons.1 hmem with hmem2 | hmem2
    · have ha1 : a.1 = w := by
        rw [← hmem2]
      have hl : l.filter (fun kv => kv.1 = w) = [] := by
        rw [List.filter_eq_nil_iff]
        intro kv hkv hb
        have hkvw : kv.1 = w := by simpa using hb
        apply hnd2.1
        rw [ha1, ← hkvw]
        exact mapKeys_of_mem hkv
      rw [List.filter_cons, if_pos (by simpa using ha1), hl, ← hmem2]
    · have ha1 : ¬ a.1 = w := by
        intro h
        apply hnd2.1
        rw [h]
        exact mapKeys_of_mem hmem2
      rw [List.filter_cons, if_neg (by simpa using ha1)]
      exact ih hnd2.2 hmem2

theorem code_split_perm {m : CodeMap} (hnd : (mapKeys m).Nodup) {w : Str} {lab : Int}
    (hmem : (w, lab) ∈ m) : m.Perm (mapErase m w ++ [(w, lab)]) := by
  have h1 : (m.filter (fun kv => kv.1 = w)
      ++ m.filter (fun kv => !(decide (kv.1 = w)))).Perm m :=
    List.filter_append_perm _ m
  have h2 : m.filter (fun kv => !(decide (kv.1 = w))) = mapErase m w := by
    unfold mapErase
    refine List.filter_congr ?_
    intro kv _
    rw [decide_not]
  rw [nodup_entry_filter hnd hmem, h2] at h1
  exact (List.perm_append_comm.trans h1).symm

theorem mapLookup_of_mem {m : CodeMap} (hnd : (mapKeys m).Nodup) {w : Str} {lab : Int}
    (hmem : (w, lab) ∈ m) : mapLookup m w = some lab := by
  unfold mapLookup
  induction m with
  | nil => exact absurd hmem (List.not_mem_nil _)
  | cons a l ih =>
    have hnd2 : (mapKeys (a :: l)).Nodup := hnd
    rw [show mapKeys (a :: l) = a.1 :: mapKeys l from rfl, List.nodup_cons] at hnd2
    rcases List.mem_cons.1 hmem with h | h
    · rw [List.find?_cons_of_pos _ (by rw [← h]; simp)]
      rw [← h]
      rfl
    · have ha1 : ¬ a.1 = w := by
        intro hh
        apply hnd2.1
        rw [hh]
        exact mapKeys_of_mem h
      rw [List.find?_cons_of_neg _ (by simpa using ha1)]
      exact ih hnd2.2 h

theorem mapLookup_append_skip {m1 m2 : CodeMap} {w : Str} (h : ∀ kv ∈ m1, ¬ kv.1 = w) :
    mapLookup (m1 ++ m2) w = mapLookup m2 w := by
  unfold mapLookup
  congr 1
  induction m1 with
  | nil => rfl
  | cons a l ih =>
    rw [List.cons_append,
      List.find?_cons_of_neg _ (by simpa using h a (List.mem_cons_self a l))]
    exact ih (fun kv hkv => h kv (List.mem_cons_of_mem a hkv))

theorem expand_reduce_fields {p : PrefixCode} {w : Str} (ha : AlphaWF p.alphabet)
    (hwf : CodeWF p.alphabet p.code) (hw : w ∈ mapKeys p.code) :
    ∃ lab : Int, (w, lab) ∈ p.code ∧
      (expandAt p w).2 = true ∧
      (reduceAt ((expandAt p w).1) w).2 = true ∧
      ((reduceAt ((expandAt p w).1) w).1).alphabet = p.alphabet ∧
      ((reduceAt ((expandAt p w).1) w).1).code = mapErase p.code w ++ [(w, lab)] := by
  obtain ⟨lab, hmem, heq⟩ := expandAt_codeword_form ha hwf hw
  obtain ⟨hnalpha, hnem, hnsent⟩ := ha
  obtain ⟨hndk, hgood, hincomp, hlabels⟩ := hwf
  set ta := sortStrs (p.alphabet.map (fun r => [r])) with hta_def
  set shifted := expandShift p.code w lab p.alphabet.length with hsh_def
  set block := expandBlock w lab ta with hbl_def
  have hw_good := hgood w hw
  have hw_ne : w ≠ [] := hw_good.1
  have hw_ns : w ≠ emptyString := by
    intro h
    apply hnsent
    have hsw : sentinelRune ∈ w := by
      rw [h]
      exact List.mem_cons_self _ _
    exact hw_good.2 sentinelRune hsw
  have hs_cond : ¬ (w = [] ∨ w = emptyString) := by
    rintro (h | h)
    · exact hw_ne h
    · exact hw_ns h
  have hlab_rank : lab = (rankOf p.alphabet (mapKeys p.code) w : Int) := hlabels (w, lab) hmem
  have hta_perm : ta.Perm (p.alphabet.map (fun r => [r])) := sortStrs_perm _
  have hta_len : ta.length = p.alphabet.length := by
    rw [hta_perm.length_eq, List.length_map]
  have hk1 : 1 ≤ p.alphabet.length := List.length_pos.2 hnem
  have hbl_len : block.length = ta.length := by
    rw [hbl_def]
    unfold expandBlock
    rw [List.length_map, List.enum_length]
  have hshk : mapKeys shifted = mapKeys (mapErase p.code w) := shift_keys _ _ _ _
  have hsh_mem : ∀ kv ∈ shifted, kv.1 ∈ mapKeys p.code ∧ kv.1 ≠ w := by
    intro kv hkv
    have h1 : kv.1 ∈ mapKeys shifted := mapKeys_of_mem hkv
    rw [hshk] at h1
    obtain ⟨v, hv⟩ := mem_mapKeys.1 h1
    obtain ⟨hvm, hvne⟩ := mem_mapErase.1 hv
    exact ⟨@mapKeys_of_mem p.code (kv.1, v) hvm, hvne⟩
  have hfsh : shifted.filter (fun kv => w.isPrefixOf kv.1) = [] := by
    rw [List.filter_eq_nil_iff]
    intro kv hkv hb
    obtain ⟨hks, hne⟩ := hsh_mem kv hkv
    exact hincomp w hw kv.1 hks (fun h => hne h.symm) (List.isPrefixOf_iff_prefix.1 hb)
  have hfbl : block.filter (fun kv => w.isPrefixOf kv.1) = block := by
    rw [List.filter_eq_self]
    intro kv hkv
    rw [hbl_def] at hkv
    unfold expandBlock at hkv
    obtain ⟨⟨j, u⟩, hju, rfl⟩ := List.mem_map.1 hkv
    exact List.isPrefixOf_iff_prefix.2 (List.prefix_append _ _)
  have hmatched : ((shifted ++ block).filter (fun kv => w.isPrefixOf kv.1)) = block := by
    rw [List.filter_append, hfsh, hfbl, List.nil_append]
  have hfsh2 : shifted.filter (fun kv => ¬ w.isPrefixOf kv.1) = shifted := by
    rw [List.filter_eq_self]
    intro kv hkv
    obtain ⟨hks, hne⟩ := hsh_mem kv hkv
    have hb : w.isPrefixOf kv.1 = false := by
      cases hb2 : w.isPrefixOf kv.1
      · rfl
      · exact absurd (List.isPrefixOf_iff_prefix.1 hb2)
          (hincomp w hw kv.1 hks (fun h => hne h.symm))
    simp [hb]
  have hfbl2 : block.filter (fun kv => ¬ w.isPrefixOf kv.1) = [] := by
    rw [List.filter_eq_nil_iff]
    intro kv hkv
    rw [hbl_def] at hkv
    unfold expandBlock at hkv
    obtain ⟨⟨j, u⟩, hju, rfl⟩ := List.mem_map.1 hkv
    simp [List.isPrefixOf_iff_prefix.2 (List.prefix_append w u)]
  have hrest : ((shifted ++ block).filter (fun kv => ¬ w.isPrefixOf kv.1)) = shifted := by
    rw [List.filter_append, hfsh2, hfbl2, List.append_nil]
  have hbl_elem : ∀ kv ∈ block, lab ≤ kv.2 := by
    intro kv hkv
    rw [hbl_def] at hkv
    unfold expandBlock at hkv
    obtain ⟨⟨j, u⟩, hju, rfl⟩ := List.mem_map.1 hkv
    show lab ≤ lab + (j : Int)
    omega
  have hbl_first : ∃ kv ∈ block, kv.2 = lab := by
    have hta0 : ta ≠ [] := by
      intro h
      rw [h] at hta_len
      simp at hta_len
      omega
    obtain ⟨u0, ta2, hta2⟩ := List.exists_cons_of_ne_nil hta0
    refine ⟨(w ++ u0, lab + ((0 : Nat) : Int)), ?_, by simp⟩
    rw [hbl_def, hta2]
    unfold expandBlock
    exact List.mem_map.2 ⟨(0, u0), by rw [List.enum_cons]; exact List.mem_cons_self _ _, rfl⟩
  have hseed_big : lab < (((shifted ++ block).length : Nat) : Int) := by
    have h1 : shifted.length = (mapErase p.code w).length := by
      rw [hsh_def]
      unfold expandShift
      rw [List.length_map]
    have h2 := code_split_perm hndk hmem
    have h3 : p.code.length = (mapErase p.code w).length + 1 := by
      rw [h2.length_eq, List.length_append]
      rfl
    have h4 : rankOf p.alphabet (mapKeys p.code) w < p.code.length := by
      have h5 := @rankOf_lt_length p.alphabet (mapKeys p.code) w hw
      unfold mapKeys at h5
      rw [List.length_map] at h5
      exact h5
    rw [List.length_append, h1, hbl_len, hta_len, hlab_rank]
    push_cast
    omega
  have hwfresh : w ∉ mapKeys shifted := by
    rw [hshk]
    intro hmem2
    obtain ⟨v, hv⟩ := mem_mapKeys.1 hmem2
    exact (mem_mapErase.1 hv).2 rfl
  have hmin : reduceMin (shifted ++ block) w = lab := by
    unfold reduceMin
    rw [hmatched]
    obtain ⟨hFseed, hFle⟩ := foldl_min_le block (((shifted ++ block).length : Nat) : Int)
    obtain ⟨kv0, hkv0, hkv0lab⟩ := hbl_first
    have hFlab := hFle kv0 hkv0
    rw [hkv0lab] at hFlab
    rcases foldl_min_mem block (((shifted ++ block).length : Nat) : Int) with hFs | ⟨kv1, hkv1, hFv⟩
    · omega
    · have h5 := hbl_elem kv1 hkv1
      omega
  have hred : reduceResult (shifted ++ block) w = mapErase p.code w ++ [(w, lab)] := by
    unfold reduceResult
    rw [hmin, hrest, hmatched, hbl_len, hta_len]
    rw [mapInsert_fresh hwfresh lab]
    rw [List.map_append]
    have hone : ([(w, lab)] : CodeMap).map
        (fun kv => if kv.2 > lab then (kv.1, kv.2 + 1 - (p.alphabet.length : Int)) else kv)
        = [(w, lab)] := by
      rw [List.map_cons, List.map_nil, if_neg (lt_irrefl lab)]
    have hmaps : shifted.map
        (fun kv => if kv.2 > lab then (kv.1, kv.2 + 1 - (p.alphabet.length : Int)) else kv)
        = mapErase p.code w := by
      rw [hsh_def]
      unfold expandShift
      rw [List.map_map]
      have hid : ∀ kv ∈ mapErase p.code w,
          ((fun kv => if kv.2 > lab then (kv.1, kv.2 + 1 - (p.alphabet.length : Int)) else kv) ∘
            (fun kv2 => if kv2.2 > lab then (kv2.1, kv2.2 + (p.alphabet.length : Int) - 1) else kv2))
            kv = id kv := by
        intro kv _
        have hL : (1 : Int) ≤ (p.alphabet.length : Int) := by exact_mod_cast hk1
        by_cases hv : kv.2 > lab
        · rw [Function.comp_apply, if_pos hv, if_pos (show lab < kv.2 + (p.alphabet.length : Int) - 1 by omega)]
          have harith : kv.2 + (p.alphabet.length : Int) - 1 + 1 - (p.alphabet.length : Int) = kv.2 := by
            ring
          rw [harith]
          rfl
        · rw [Function.comp_apply, if_neg hv, if_neg hv]
          rfl
      exact (List.map_congr_left hid).trans (List.map_id _)
    rw [hone, hmaps]
  have hq2 : (expandAt p w).2 = true := by
    rw [heq]
  have hqcode : ((expandAt p w).1).code = shifted ++ block := by
    rw [heq]
  have hqalpha : ((expandAt p w).1).alphabet = p.alphabet := by
    rw [heq]
  have hne0 : ¬ (((expandAt p w).1).code.filter (fun kv => w.isPrefixOf kv.1)).length = 0 := by
    rw [hqcode, hmatched, hbl_len, hta_len]
    omega
  have hra := reduceAt_spec ((expandAt p w).1) w hs_cond hne0
  refine ⟨lab, hmem, hq2, ?_, ?_, ?_⟩
  · rw [hra]
  · rw [hra]
    exact hqalpha
  · rw [hra]
    show reduceResult ((expandAt p w).1).code w = mapErase p.code w ++ [(w, lab)]
    rw [hqcode, hred]

/-! ## The claims -/

/-- **C1** (corrected: the alphabet must consist of pairwise distinct
single-byte runes).  `NewPrefCodeAlphaRunes` itself accepts duplicated
alphabets, and these break the label bijection; and on multibyte alphabets
`ExpandAt`'s byte-length arithmetic over a `[]rune` spine panics or breaks
the invariant for targets strictly below a codeword (the source's TODO),
so the invariant is claimed — and proved — for alphabets of pairwise
distinct runes below 128, where byte and rune arithmetic coincide and the
embedding is exact.  For a code freshly constructed over such an alphabet,
after any finite sequence of `ExpandAt`/`ReduceAt` calls on words over the
alphabet the codewords are distinct and prefix-incomparable and the labels
are a permutation of `{0, ..., n-1}`. -/
theorem claim_C1_invariants {alpha : List Rune} {p : PrefixCode} (hnd : alpha.Nodup)
    (hascii : ∀ r ∈ alpha, r < 128)
    (hnew : newPrefCodeAlphaRunes alpha = some p) (ops : List Op)
    (hops : ∀ o ∈ ops, wordOver p.alphabet o.word) :
    (mapKeys (runOps p ops).code).Nodup ∧
    (∀ a ∈ mapKeys (runOps p ops).code, ∀ b ∈ mapKeys (runOps p ops).code,
      a ≠ b → ¬ a <+: b) ∧
    ((runOps p ops).code.map Prod.snd).Perm
      ((List.range (runOps p ops).code.length).map Int.ofNat) := by
  unfold newPrefCodeAlphaRunes at hnew
  by_cases h1 : sentinelRune ∈ alpha
  · rw [if_pos h1] at hnew
    exact absurd hnew (by simp)
  · rw [if_neg h1] at hnew
    by_cases h2 : alpha.length < 1
    · rw [if_pos h2] at hnew
      exact absurd hnew (by simp)
    · rw [if_neg h2] at hnew
      have hp : p = { alphabet := alpha, code := [(emptyString, 0)] } := by
        injection hnew with h
        exact h.symm
      subst hp
      have hinv : StateInv { alphabet := alpha, code := [(emptyString, 0)] } := by
        refine ⟨⟨hnd, ?_, h1⟩, Or.inl rfl⟩
        intro hnil
        apply h2
        have hnil2 : alpha = [] := hnil
        rw [hnil2]
        decide
      exact StateInv_conclusions (runOps_preserves hinv ops hops).1

/-- Witness for the invariant theorem: the binary alphabet, one expansion. -/
theorem claim_C1_witness :
    ([48, 49] : List Rune).Nodup ∧
    (∀ r ∈ ([48, 49] : List Rune), r < 128) ∧
    newPrefCodeAlphaRunes [48, 49] = some fresh01 ∧
    (∀ o ∈ [Op.expand [49]], wordOver fresh01.alphabet o.word) ∧
    ((mapKeys (runOps fresh01 [Op.expand [49]]).code).Nodup ∧
      (∀ a ∈ mapKeys (runOps fresh01 [Op.expand [49]]).code,
        ∀ b ∈ mapKeys (runOps fresh01 [Op.expand [49]]).code, a ≠ b → ¬ a <+: b) ∧
      ((runOps fresh01 [Op.expand [49]]).code.map Prod.snd).Perm
        ((List.range (runOps fresh01 [Op.expand [49]]).code.length).map Int.ofNat)) :=
  ⟨by decide, by decide, by decide, by decide,
    @claim_C1_invariants [48, 49] fresh01 (by decide) (by decide) (by decide)
      [Op.expand [49]] (by decide)⟩

/-- Counterexample to the claim as stated: the constructor accepts the
duplicated alphabet `"00"`, and one expansion at `"0"` leaves a single
codeword labelled 2, so the labels are not a permutation of `{0}`. -/
theorem claim_C1_counterexample :
    newPrefCodeAlphaRunes [48, 48] = some pDup ∧
    wordOver pDup.alphabet [48] ∧
    ¬ ((runOps pDup [Op.expand [48]]).code.map Prod.snd).Perm
      ((List.range (runOps pDup [Op.expand [48]]).code.length).map Int.ofNat) := by
  decide

/-- **C2** (code bug).  `ReduceAt` on the empty or sentinel word reports
success, but the "collapse the whole code" branch only reassigns the `code`
field of the value receiver, so the caller observes the *unchanged* state —
not the promised sentinel-only reset.  In particular the developed code
`pc01` still has its two codewords afterwards. -/
theorem claim_C2_reset_invisible :
    (∀ pr : PrefixCode, reduceAt pr [] = (pr, true) ∧ reduceAt pr emptyString = (pr, true)) ∧
    (reduceAt pc01 []).1.code ≠ [(emptyString, 0)] ∧
    (reduceAt pc01 emptyString).1.code ≠ [(emptyString, 0)] := by
  refine ⟨?_, by decide, by decide⟩
  intro pr
  exact ⟨reduceAt_reset pr [] (Or.inl rfl), reduceAt_reset pr emptyString (Or.inr rfl)⟩

/-- **C3** (corrected: the guarantee holds for codes in a developed state; in
the sentinel-only state the claim fails, see the counterexample).  If no
codeword of a developed code is a prefix of `w`, then `ExpandAt(w)` fails and
the caller-visible state is exactly the state before the call. -/
theorem claim_C3_expand_shallow_noop {p : PrefixCode} {w : Str} (ha : AlphaWF p.alphabet)
    (hwf : CodeWF p.alphabet p.code) (hnone : ∀ k ∈ mapKeys p.code, ¬ k <+: w) :
    expandAt p w = (p, false) := by
  have hnc := not_sentinel_cond ha hwf
  unfold expandAt
  rw [if_neg (fun h => hnc h.2), if_neg hnc]
  show expandAtMain p w = (p, false)
  have hfind : p.code.find? (fun kv => kv.1.isPrefixOf w) = none := by
    rw [List.find?_eq_none]
    intro kv hkv hb
    exact hnone kv.1 (mapKeys_of_mem hkv) (List.isPrefixOf_iff_prefix.1 hb)
  unfold expandAtMain
  rw [hfind]

/-- Witness: the developed code `{"0" ↦ 0, "1" ↦ 1}` and the word `"2"`,
which no codeword is a prefix of. -/
theorem claim_C3_witness :
    AlphaWF pc01.alphabet ∧ CodeWF pc01.alphabet pc01.code ∧
    (∀ k ∈ mapKeys pc01.code, ¬ k <+: [50]) ∧
    expandAt pc01 [50] = (pc01, false) :=
  ⟨by decide, by decide, by decide,
    claim_C3_expand_shallow_noop (by decide) (by decide) (by decide)⟩

/-- Counterexample to the claim as stated: in the sentinel-only state no
codeword is a prefix of `"0"`, yet `ExpandAt("0")` reports success and
mutates the code (it develops one level and expands). -/
theorem claim_C3_counterexample :
    (∀ k ∈ mapKeys fresh01.code, ¬ k <+: [48]) ∧
    (expandAt fresh01 [48]).2 = true ∧
    (expandAt fresh01 [48]).1.code ≠ fresh01.code := by
  decide

/-- **C4** (code bug).  In the twelve-leaf right comb both children
`"11111111110"` and `"11111111111"` of the word of ten `'1'`s are codewords
and the alphabet has two runes, so the specification requires that word to be
an exposed caret; but `ExposedCarets` tallies the *decimal digits* of the
children's labels (here `10` and `11`, four digits ≠ alphabet size 2) and
returns no caret at all. -/
theorem claim_C4_exposedCarets_digit_bug :
    (List.replicate 10 49 ++ [48]) ∈ mapKeys comb12ex.code ∧
    (List.replicate 10 49 ++ [49]) ∈ mapKeys comb12ex.code ∧
    comb12ex.alphabet.length = 2 ∧
    exposedCarets comb12ex = [] := by
  decide

/-- **C5** (code bug).  `Join` of the twelve-leaf right comb with itself is
built from the comb's `ExposedCarets`, which the digit-tally bug empties, so
the join collapses to the trivial sentinel code; that result is *not* above
the comb in the refinement order, violating `A ≤ Join(A,B)`. -/
theorem claim_C5_join_bound_violated :
    join comb12ex comb12ex = some fresh01 ∧ ¬ refines comb12ex fresh01 := by
  decide

/-- **C6** (corrected: the restoration holds when the expansion word is
itself a codeword; expanding strictly below a codeword inserts sibling
codewords that `ReduceAt` does not remove, see the counterexample).  For a
codeword `w` of a well-formed code, `ExpandAt(w)` succeeds and an immediate
`ReduceAt(w)` restores the pre-expansion cardinality and codeword set, and
`w` carries the same label as before. -/
theorem claim_C6_expand_reduce_roundtrip {p : PrefixCode} {w : Str} (ha : AlphaWF p.alphabet)
    (hwf : CodeWF p.alphabet p.code) (hw : w ∈ mapKeys p.code) :
    (expandAt p w).2 = true ∧
    (reduceAt ((expandAt p w).1) w).2 = true ∧
    sizeFn ((reduceAt ((expandAt p w).1) w).1) = sizeFn p ∧
    (mapKeys (((reduceAt ((expandAt p w).1) w).1).code)).Perm (mapKeys p.code) ∧
    mapLookup (((reduceAt ((expandAt p w).1) w).1).code) w = mapLookup p.code w := by
  obtain ⟨lab, hmem, h1, h2, h3, h4⟩ := expand_reduce_fields ha hwf hw
  have hsplit := code_split_perm hwf.1 hmem
  refine ⟨h1, h2, ?_, ?_, ?_⟩
  · show ((reduceAt ((expandAt p w).1) w).1).code.length = p.code.length
    rw [h4]
    exact hsplit.length_eq.symm
  · rw [h4]
    exact (hsplit.map Prod.fst).symm
  · rw [h4]
    rw [mapLookup_append_skip (fun kv hkv => (mem_mapErase.1 hkv).2)]
    rw [mapLookup_of_mem hwf.1 hmem]
    unfold mapLookup
    rw [List.find?_cons_of_pos _ (by simp)]
    rfl

/-- Witness: the two-leaf code and its codeword `"0"`. -/
theorem claim_C6_witness :
    AlphaWF pc01.alphabet ∧ CodeWF pc01.alphabet pc01.code ∧ [48] ∈ mapKeys pc01.code ∧
    ((expandAt pc01 [48]).2 = true ∧
      (reduceAt ((expandAt pc01 [48]).1) [48]).2 = true ∧
      sizeFn ((reduceAt ((expandAt pc01 [48]).1) [48]).1) = sizeFn pc01 ∧
      (mapKeys (((reduceAt ((expandAt pc01 [48]).1) [48]).1).code)).Perm (mapKeys pc01.code) ∧
      mapLookup (((reduceAt ((expandAt pc01 [48]).1) [48]).1).code) [48]
        = mapLookup pc01.code [48]) :=
  ⟨by decide, by decide, by decide,
    claim_C6_expand_reduce_roundtrip (by decide) (by decide) (by decide)⟩

/-- Counterexample to the claim as stated: on the code `{"0","10","11"}` the
expansion `ExpandAt("00")` succeeds (codeword `"0"` covers `"00"`), but the
follow-up `ReduceAt("00")` leaves four codewords where there were three —
the sibling `"01"` created by the expansion survives. -/
theorem claim_C6_counterexample :
    (expandAt p3ex [48, 48]).2 = true ∧
    sizeFn ((reduceAt ((expandAt p3ex [48, 48]).1) [48, 48]).1) ≠ sizeFn p3ex := by
  decide

/-- **C7** (corrected: `ExpandAt` at an existing codeword is *not* a no-op;
it replaces the codeword by its full fan of one-rune extensions).  For a
codeword `w` of a well-formed code, `ExpandAt(w)` succeeds and the new
codeword set is the old one with `w` replaced by `w·r` for every alphabet
rune `r`. -/
theorem claim_C7_expand_at_codeword {p : PrefixCode} {w : Str} (ha : AlphaWF p.alphabet)
    (hwf : CodeWF p.alphabet p.code) (hw : w ∈ mapKeys p.code) :
    (expandAt p w).2 = true ∧
    (mapKeys ((expandAt p w).1).code).Perm
      ((mapKeys p.code).filter (fun k => ¬ k = w) ++ p.alphabet.map (fun r => w ++ [r])) := by
  obtain ⟨lab, hmem, heq⟩ := expandAt_codeword_form ha hwf hw
  constructor
  · rw [heq]
  · have hcode : ((expandAt p w).1).code
        = expandShift p.code w lab p.alphabet.length
          ++ expandBlock w lab (sortStrs (p.alphabet.map (fun r => [r]))) := by
      rw [heq]
    rw [hcode, mapKeys_append, shift_keys]
    have h1 : mapKeys (mapErase p.code w) = (mapKeys p.code).filter (fun k => ¬ k = w) := by
      unfold mapErase
      exact mapKeys_filter (fun k2 => decide (¬ k2 = w)) p.code
    rw [h1, expandBlock_keys]
    refine List.Perm.append_left _ ?_
    have h2 := (sortStrs_perm (p.alphabet.map (fun r => [r]))).map (fun u => w ++ u)
    refine h2.trans ?_
    rw [List.map_map]
    rw [show ((fun u => w ++ u) ∘ fun r => [r]) = (fun r => w ++ [r]) from rfl]

/-- Witness: the two-leaf code and its codeword `"1"`. -/
theorem claim_C7_witness :
    AlphaWF pc01.alphabet ∧ CodeWF pc01.alphabet pc01.code ∧ [49] ∈ mapKeys pc01.code ∧
    ((expandAt pc01 [49]).2 = true ∧
      (mapKeys ((expandAt pc01 [49]).1).code).Perm
        ((mapKeys pc01.code).filter (fun k => ¬ k = [49])
          ++ pc01.alphabet.map (fun r => [49] ++ [r]))) :=
  ⟨by decide, by decide, by decide,
    claim_C7_expand_at_codeword (by decide) (by decide) (by decide)⟩

/-- Counterexample to the claim as stated: `"0"` is a codeword of the
two-leaf code, yet `ExpandAt("0")` succeeds and changes the codeword set. -/
theorem claim_C7_counterexample :
    [48] ∈ mapKeys pc01.code ∧
    (expandAt pc01 [48]).2 = true ∧
    mapKeys ((expandAt pc01 [48]).1).code ≠ mapKeys pc01.code := by
  decide

/-- **C9.**  `SetCode` and `SetAlphabet` assign to fields of the value
receiver only, so the caller-visible state — and hence `Code()`,
`Alphabet()`, `String()` and `Size()` — is unchanged by the calls. -/
theorem claim_C9_setters_are_frame :
    ∀ (p : PrefixCode) (m : CodeMap) (a : List Rune),
      codeFn (setCode p m) = codeFn p ∧
      alphabetFn (setCode p m) = alphabetFn p ∧
      stringRepr (setCode p m) = stringRepr p ∧
      sizeFn (setCode p m) = sizeFn p ∧
      codeFn (setAlphabet p a) = codeFn p ∧
      alphabetFn (setAlphabet p a) = alphabetFn p ∧
      stringRepr (setAlphabet p a) = stringRepr p ∧
      sizeFn (setAlphabet p a) = sizeFn p :=
  fun p m a => ⟨rfl, rfl, rfl, rfl, rfl, rfl, rfl, rfl⟩

/-- **C10.**  `CodeToSlice` on a code with `n` (distinct) codewords yields a
slice of length `2n`: `n` empty strings (the `make` zero values) followed by
the `n` codewords, each exactly once. -/
theorem claim_C10_codeToSlice {p : PrefixCode} (hnd : (mapKeys p.code).Nodup) :
    (codeToSlice p).length = 2 * sizeFn p ∧
    (codeToSlice p).take (sizeFn p) = List.replicate (sizeFn p) [] ∧
    (codeToSlice p).drop (sizeFn p) = mapKeys p.code ∧
    ((codeToSlice p).drop (sizeFn p)).Nodup := by
  unfold codeToSlice sizeFn
  refine ⟨?_, ?_, ?_, ?_⟩
  · rw [List.length_append, List.length_replicate, List.length_map]
    omega
  · exact List.take_left' (List.length_replicate _ _)
  · exact List.drop_left' (List.length_replicate _ _)
  · rw [List.drop_left' (List.length_replicate _ _)]
    exact hnd

/-- Witness: the two-leaf code. -/
theorem claim_C10_witness :
    (mapKeys pc01.code).Nodup ∧
    ((codeToSlice pc01).length = 2 * sizeFn pc01 ∧
      (codeToSlice pc01).take (sizeFn pc01) = List.replicate (sizeFn pc01) [] ∧
      (codeToSlice pc01).drop (sizeFn pc01) = mapKeys pc01.code ∧
      ((codeToSlice pc01).drop (sizeFn pc01)).Nodup) :=
  ⟨by decide, claim_C10_codeToSlice (by decide)⟩
